import Mathlib

/-!
# kube-hostpath-provisioner: the hostPath backend

A shallow embedding of `kube-hostpath-provisioner.go`: the configuration check of `Run`,
and the `Provision` / `Delete` pair of `hostPathProvisioner`, together with the pieces of
the Go standard library they call (`path.Join`, `path.Clean`, `os.MkdirAll`,
`os.RemoveAll`) over an explicit file system state.

Go strings are byte strings; the only bytes the path functions inspect are `/` and `.`,
which never occur inside a multi-byte UTF-8 sequence, so strings are embedded as Lean
strings and inspected character by character.

The receiver `p`, the argument `volume` of `Delete` and the argument `c` of `Run` are the
objects the pointers refer to. The field `options.PVC` is a pointer inside the options
value and may be nil; dereferencing it then panics.
-/

namespace HostPath

/-! ## `path.Clean` and `path.Join` (Go package `path`) -/

/-- The backtracking loop of `Clean` on a `..` element, started after `out.w--`:
`for out.w > dotdot && out.index(out.w) != '/' { out.w-- }`. The argument is the current
`out.w`, the result the final one. -/
def backtrack (out : List Char) (dotdot : Nat) : Nat → Nat
  | 0 => 0
  | w + 1 =>
    if dotdot < w + 1 ∧ out.getD (w + 1) '/' ≠ '/' then backtrack out dotdot w else w + 1

/-- The main loop `for r < n { switch ... }` of `Clean`. The unread input `path[r:]` is the
second list, the written buffer `out` (of length `out.w`) the third. One unit of fuel is
spent per iteration; every iteration reads at least one byte, so `len(path)` units are
enough. -/
def cleanLoop (rooted : Bool) : Nat → List Char → List Char → Nat → List Char
  | 0, _, out, _ => out
  | _ + 1, [], out, _ => out
  | fuel + 1, c :: cs, out, dotdot =>
    if c = '/' then
      -- empty path element
      cleanLoop rooted fuel cs out dotdot
    else if c = '.' ∧ (cs = [] ∨ cs.head? = some '/') then
      -- . element
      cleanLoop rooted fuel cs out dotdot
    else if c = '.' ∧ cs.head? = some '.' ∧ (cs.tail = [] ∨ cs.tail.head? = some '/') then
      -- .. element: remove to last /
      if dotdot < out.length then
        cleanLoop rooted fuel cs.tail (out.take (backtrack out dotdot (out.length - 1))) dotdot
      else if rooted = false then
        let out1 := (if 0 < out.length then out ++ ['/'] else out) ++ ['.', '.']
        cleanLoop rooted fuel cs.tail out1 out1.length
      else
        cleanLoop rooted fuel cs.tail out dotdot
    else
      -- real path element: add slash if needed, copy element
      let out1 :=
        if (rooted = true ∧ out.length ≠ 1) ∨ (rooted = false ∧ out.length ≠ 0) then out ++ ['/']
        else out
      cleanLoop rooted fuel ((c :: cs).dropWhile (fun x => x != '/'))
        (out1 ++ (c :: cs).takeWhile (fun x => x != '/')) dotdot

/-- Go `path.Clean` on the bytes of the path. -/
def cleanChars (path : List Char) : List Char :=
  if path = [] then ['.']
  else
    let rooted : Bool := path.head? = some '/'
    let out :=
      if rooted then cleanLoop true path.length path.tail ['/'] 1
      else cleanLoop false path.length path [] 0
    if out.length = 0 then ['.'] else out

/-- Go `path.Clean`. -/
def Clean (path : String) : String := ⟨cleanChars path.data⟩

/-- The buffer-filling loop of `path.Join`: non-empty elements separated by `/`. -/
def joinBuf : List (List Char) → List Char → List Char
  | [], buf => buf
  | e :: es, buf =>
    if 0 < buf.length ∨ e ≠ [] then
      joinBuf es ((if 0 < buf.length then buf ++ ['/'] else buf) ++ e)
    else joinBuf es buf

/-- Go `path.Join(elem...)`: empty when every element is empty, otherwise the cleaned
slash-separated concatenation of the non-empty elements. -/
def Join (elem : List String) : String :=
  if (elem.map String.length).sum = 0 then ""
  else Clean ⟨joinBuf (elem.map String.data) []⟩

/-! ## File system state

A tree of regular files and directories without symbolic links or permissions. An entry is
named by its absolute location, the list of names leading to it from the root directory;
the root directory itself is `[]` and always exists. Relative paths start at `cwd`. -/

inductive Errno
  | ENOENT | ENOTDIR | EEXIST | EISDIR | EINVAL | ENOTEMPTY | EBUSY
  deriving DecidableEq, Repr

inductive FileKind
  | regular | directory
  deriving DecidableEq, Repr

structure FS where
  cwd : List String
  entries : List (List String × FileKind)
  deriving DecidableEq, Repr

/-- Go `os.PathError`. -/
structure PathError where
  Op : String
  Path : String
  Err : Errno
  deriving DecidableEq, Repr

def lookupEntry (node : List String) : List (List String × FileKind) → Option FileKind
  | [] => none
  | e :: rest => if e.1 = node then some e.2 else lookupEntry node rest

/-- What exists at an absolute location, if anything. -/
def kindOf (fs : FS) (node : List String) : Option FileKind :=
  if node = [] then some FileKind.directory else lookupEntry node fs.entries

/-- Splits at every `/`; the pieces may be empty. -/
def splitSlash : List Char → List (List Char)
  | [] => [[]]
  | c :: cs =>
    if c = '/' then [] :: splitSlash cs
    else
      match splitSlash cs with
      | [] => [[c]]
      | s :: ss => (c :: s) :: ss

/-- The components the kernel sees in a path: repeated and trailing separators are
ignored. -/
def components (path : String) : List String :=
  ((splitSlash path.data).filter (fun s => s ≠ [])).map String.mk

def stepNode (cur : List String) (c : String) : List String :=
  if c = "." then cur else if c = ".." then cur.dropLast else cur ++ [c]

/-- Path walk: every component is looked up in a directory that has to exist. -/
def walk (fs : FS) : List String → List String → Except Errno (List String)
  | cur, [] => Except.ok cur
  | cur, c :: cs =>
    match kindOf fs cur with
    | none => Except.error Errno.ENOENT
    | some FileKind.regular => Except.error Errno.ENOTDIR
    | some FileKind.directory => walk fs (stepNode cur c) cs

/-- The location a path names; the last component itself need not exist. -/
def resolve (fs : FS) (path : String) : Except Errno (List String) :=
  if path.data = [] then Except.error Errno.ENOENT
  else walk fs (if path.data.head? = some '/' then [] else fs.cwd) (components path)

/-- Whether the last component is an ordinary name (not `.`, `..`, or missing as in `/`). -/
def lastIsName (path : String) : Bool :=
  match (components path).getLast? with
  | none => false
  | some c => c != "." && c != ".."

/-- System call `lstat(2)`; without symbolic links also `stat(2)`. -/
def sysLstat (fs : FS) (path : String) : Except Errno FileKind :=
  match resolve fs path with
  | Except.error e => Except.error e
  | Except.ok node =>
    match kindOf fs node with
    | none => Except.error Errno.ENOENT
    | some k => Except.ok k

/-- System call `mkdir(2)`. -/
def sysMkdir (fs : FS) (path : String) : Except Errno FS :=
  match resolve fs path with
  | Except.error e => Except.error e
  | Except.ok node =>
    if lastIsName path = false then Except.error Errno.EEXIST
    else
      match kindOf fs node with
      | some _ => Except.error Errno.EEXIST
      | none => Except.ok { fs with entries := (node, FileKind.directory) :: fs.entries }

def eraseNode (fs : FS) (node : List String) : FS :=
  { fs with entries := fs.entries.filter (fun e => e.1 ≠ node) }

def hasEntriesBelow (fs : FS) (node : List String) : Bool :=
  fs.entries.any (fun e => node.isPrefixOf e.1 && e.1 != node)

/-- System call `unlink(2)`. -/
def sysUnlink (fs : FS) (path : String) : Except Errno FS :=
  match resolve fs path with
  | Except.error e => Except.error e
  | Except.ok node =>
    if lastIsName path = false then Except.error Errno.EISDIR
    else
      match kindOf fs node with
      | none => Except.error Errno.ENOENT
      | some FileKind.directory => Except.error Errno.EISDIR
      | some FileKind.regular => Except.ok (eraseNode fs node)

/-- System call `rmdir(2)`. -/
def sysRmdir (fs : FS) (path : String) : Except Errno FS :=
  match resolve fs path with
  | Except.error e => Except.error e
  | Except.ok node =>
    if (components path).getLast? = some "." then Except.error Errno.EINVAL
    else if (components path).getLast? = some ".." then Except.error Errno.ENOTEMPTY
    else if node = [] then Except.error Errno.EBUSY
    else
      match kindOf fs node with
      | none => Except.error Errno.ENOENT
      | some FileKind.regular => Except.error Errno.ENOTDIR
      | some FileKind.directory =>
        if hasEntriesBelow fs node then Except.error Errno.ENOTEMPTY
        else Except.ok (eraseNode fs node)

/-! ## Go package `os` -/

def Lstat (fs : FS) (name : String) : Except PathError FileKind :=
  match sysLstat fs name with
  | Except.error e => Except.error ⟨"lstat", name, e⟩
  | Except.ok k => Except.ok k

def Stat (fs : FS) (name : String) : Except PathError FileKind :=
  match sysLstat fs name with
  | Except.error e => Except.error ⟨"stat", name, e⟩
  | Except.ok k => Except.ok k

def Mkdir (fs : FS) (name : String) : Option PathError × FS :=
  match sysMkdir fs name with
  | Except.error e => (some ⟨"mkdir", name, e⟩, fs)
  | Except.ok fs1 => (none, fs1)

/-- Go `os.Remove`: tries `unlink`, then `rmdir`, and reports the `rmdir` error unless
that one is `ENOTDIR`. -/
def Remove (fs : FS) (name : String) : Option PathError × FS :=
  match sysUnlink fs name with
  | Except.ok fs1 => (none, fs1)
  | Except.error e =>
    match sysRmdir fs name with
    | Except.ok fs1 => (none, fs1)
    | Except.error e1 =>
      (some ⟨"remove", name, if e1 ≠ Errno.ENOTDIR then e1 else e⟩, fs)

/-- The loop `for i > 0 && os.IsPathSeparator(path[i-1]) { i-- }` of `MkdirAll`. -/
def skipSeparators (path : List Char) : Nat → Nat
  | 0 => 0
  | i + 1 => if path.getD i ' ' = '/' then skipSeparators path i else i + 1

/-- The loop `for j > 0 && !os.IsPathSeparator(path[j-1]) { j-- }` of `MkdirAll`. -/
def scanElement (path : List Char) : Nat → Nat
  | 0 => 0
  | j + 1 => if path.getD j '/' ≠ '/' then scanElement path j else j + 1

/-- Go `os.MkdirAll`, recursing on the parent `path[:j-1]`. The recursion is on a strictly
shorter path, so `len(path) + 1` units of fuel are never used up. -/
def mkdirAllAux : Nat → FS → String → Option PathError × FS
  | 0, fs, path => (some ⟨"mkdir", path, Errno.EINVAL⟩, fs)
  | fuel + 1, fs, path =>
    match Stat fs path with
    | Except.ok FileKind.directory => (none, fs)
    | Except.ok FileKind.regular => (some ⟨"mkdir", path, Errno.ENOTDIR⟩, fs)
    | Except.error _ =>
      let i := skipSeparators path.data path.data.length
      let j := scanElement path.data i
      let parent : Option PathError × FS :=
        if 1 < j then mkdirAllAux fuel fs ⟨path.data.take (j - 1)⟩ else (none, fs)
      match parent with
      | (some err, fs1) => (some err, fs1)
      | (none, fs1) =>
        match Mkdir fs1 path with
        | (none, fs2) => (none, fs2)
        | (some err, _) =>
          match Lstat fs1 path with
          | Except.ok FileKind.directory => (none, fs1)
          | _ => (some err, fs1)

def MkdirAll (fs : FS) (path : String) : Option PathError × FS :=
  mkdirAllAux (path.data.length + 1) fs path

/-- The effect of the loop of `removeAllFrom` that reads the directory and calls
`removeAllFrom` on every child: without permissions every such call succeeds, and
everything below the directory is gone. -/
def removeContents (fs : FS) (path : String) : FS :=
  match resolve fs path with
  | Except.error _ => fs
  | Except.ok node =>
    { fs with entries := fs.entries.filter (fun e => !(node.isPrefixOf e.1 && e.1 != node)) }

/-- Go `endsWithDot`: whether the final component of the path is `.`. -/
def endsWithDot (path : String) : Bool :=
  decide (path = ".") ||
    (decide (2 ≤ path.data.length) && path.data.getD (path.data.length - 1) ' ' == '.' &&
      path.data.getD (path.data.length - 2) ' ' == '/')

/-- The first loop of `splitPath`:
`for len(path) > 1 && path[0] == '/' && path[1] == '/' { path = path[1:] }`. -/
def dropLeadingSlashes : List Char → List Char
  | [] => []
  | c :: rest =>
    match rest with
    | [] => [c]
    | d :: _ => if c = '/' ∧ d = '/' then dropLeadingSlashes rest else c :: rest

/-- The second loop of `splitPath`, `for ; i > 0 && path[i] == '/'; i-- { path = path[:i] }`:
the final `i`. -/
def trimIndex (path : List Char) : Nat → Nat
  | 0 => 0
  | i + 1 => if path.getD (i + 1) ' ' = '/' then trimIndex path i else i + 1

/-- The third loop of `splitPath`, `for i--; i >= 0; i-- { if path[i] == '/' ... break }`:
the index of the last `/` below the bound, if any. -/
def lastSlashBelow (path : List Char) : Nat → Option Nat
  | 0 => none
  | k + 1 => if path.getD k ' ' = '/' then some k else lastSlashBelow path k

/-- Go `splitPath`: the parent directory and the base name of a path. -/
def splitPath (path : String) : String × String :=
  let p1 := dropLeadingSlashes path.data
  let i := trimIndex p1 (p1.length - 1)
  let p2 := p1.take (i + 1)
  match lastSlashBelow p2 i with
  | none => (".", ⟨p2⟩)
  | some k => (if k = 0 then ⟨p2.take 1⟩ else ⟨p2.take k⟩, ⟨p2.drop (k + 1)⟩)

/-- The call `Open(parentDir)` of `RemoveAll`, for the parent `splitPath` cuts off: the walk
of the path up to, not including, its last component; what is found there is opened, be it
a directory or a regular file. -/
def openParent (fs : FS) (path : String) : Except Errno (List String) :=
  if path.data = [] then Except.error Errno.ENOENT
  else
    match walk fs (if path.data.head? = some '/' then [] else fs.cwd)
        (components path).dropLast with
    | Except.error e => Except.error e
    | Except.ok node =>
      match kindOf fs node with
      | none => Except.error Errno.ENOENT
      | some _ => Except.ok node

/-- Go `removeAllFrom(parent, base)` with `parent` opened by `openParent`. The calls
`unlinkat(parentFd, base, 0)`, `fstatat(parentFd, base)` and
`unlinkat(parentFd, base, AT_REMOVEDIR)` address the entry that `unlink`, `lstat` and
`rmdir` address through the whole path. The loop over the children is `removeContents`. -/
def removeAllFrom (fs : FS) (path base : String) : Option PathError × FS :=
  match sysUnlink fs path with
  | Except.ok fs1 => (none, fs1)
  | Except.error e =>
    if e = Errno.ENOENT then (none, fs)
    else if e ≠ Errno.EISDIR then (some ⟨"unlinkat", base, e⟩, fs)
    else
      match sysLstat fs path with
      | Except.error se =>
        if se = Errno.ENOENT then (none, fs) else (some ⟨"fstatat", base, se⟩, fs)
      | Except.ok FileKind.regular => (some ⟨"unlinkat", base, e⟩, fs)
      | Except.ok FileKind.directory =>
        let fs1 := removeContents fs path
        match sysRmdir fs1 path with
        | Except.ok fs2 => (none, fs2)
        | Except.error ue =>
          if ue = Errno.ENOENT then (none, fs1) else (some ⟨"unlinkat", base, ue⟩, fs1)

/-- Go `os.RemoveAll` (`os/removeall_at.go`): nothing to do for the empty path, `EINVAL` for
a path ending in `.`, then `Remove`; when that fails for another reason than a missing
path, the parent directory is opened and the base name removed from it, recursively for a
directory. -/
def RemoveAll (fs : FS) (path : String) : Option PathError × FS :=
  if path = "" then (none, fs)
  else if endsWithDot path = true then (some ⟨"RemoveAll", path, Errno.EINVAL⟩, fs)
  else
    match Remove fs path with
    | (none, fs1) => (none, fs1)
    | (some err, _) =>
      if err.Err = Errno.ENOENT then (none, fs)
      else
        match openParent fs path with
        | Except.error e =>
          if e = Errno.ENOENT then (none, fs) else (some ⟨"open", (splitPath path).1, e⟩, fs)
        | Except.ok _ =>
          match removeAllFrom fs path (splitPath path).2 with
          | (some perr, fs1) =>
            (some { perr with Path := (splitPath path).1 ++ "/" ++ perr.Path }, fs1)
          | (none, fs1) => (none, fs1)

/-! ## Errors -/

def Errno.Error : Errno → String
  | Errno.ENOENT => "no such file or directory"
  | Errno.ENOTDIR => "not a directory"
  | Errno.EEXIST => "file exists"
  | Errno.EISDIR => "is a directory"
  | Errno.EINVAL => "invalid argument"
  | Errno.ENOTEMPTY => "directory not empty"
  | Errno.EBUSY => "device or resource busy"

/-- The values of Go type `error` this program produces or passes on: `errors.New`,
the controller library's `IgnoredError` (which the controller logs and does not retry),
and `*os.PathError`. -/
inductive GoError
  | errorString (s : String)
  | IgnoredError (Reason : String)
  | pathError (e : PathError)
  deriving DecidableEq, Repr

def GoError.Error : GoError → String
  | GoError.errorString s => s
  | GoError.IgnoredError r => "ignored because " ++ r
  | GoError.pathError e => e.Op ++ " " ++ e.Path ++ ": " ++ e.Err.Error

/-- The type test `err.(*controller.IgnoredError)` the controller applies to what `Delete`
returns. -/
def GoError.isIgnored : GoError → Bool
  | GoError.IgnoredError _ => true
  | _ => false

/-- Conversion of the `error` result of an `os` call: a nil `*PathError` is a nil
`error`. -/
def asError : Option PathError → Option GoError
  | none => none
  | some e => some (GoError.pathError e)

/-! ## Kubernetes objects (the fields the provisioner reads or writes) -/

/-- Go map index with two results, `v, ok := m[k]`, on a map held as a list of pairs. -/
def mapGet {β : Type} (m : List (String × β)) (k : String) : Option β :=
  match m with
  | [] => none
  | e :: rest => if e.1 = k then some e.2 else mapGet rest k

/-- A `resource.Quantity`; its zero value is `0`. -/
structure Quantity where
  milli : Int
  deriving DecidableEq, Repr

abbrev ResourceList := List (String × Quantity)

/-- Go map index with one result, `m[k]`: the zero value when the key is missing. -/
def ResourceList.index (m : ResourceList) (k : String) : Quantity :=
  (mapGet m k).getD ⟨0⟩

def ResourceStorage : String := "storage"

structure ResourceRequirements where
  Requests : ResourceList
  deriving DecidableEq, Repr

structure PersistentVolumeClaimSpec where
  AccessModes : List String
  Resources : ResourceRequirements
  deriving DecidableEq, Repr

structure PersistentVolumeClaim where
  Spec : PersistentVolumeClaimSpec
  deriving DecidableEq, Repr

/-- The `controller.VolumeOptions` handed to `Provision`. The field `PVC` is a pointer,
`*v1.PersistentVolumeClaim`; nil is `none`. -/
structure VolumeOptions where
  PersistentVolumeReclaimPolicy : String
  PVName : String
  PVC : Option PersistentVolumeClaim
  deriving DecidableEq, Repr

/-- How a call ends: it returns its results, or it panics. -/
inductive Outcome (α : Type)
  | returned (results : α)
  | panicked (message : String)
  deriving DecidableEq, Repr

/-- The message of the run-time panic on reading through a nil pointer. -/
def nilDereference : String :=
  "runtime error: invalid memory address or nil pointer dereference"

structure ObjectMeta where
  Name : String
  Annotations : List (String × String)
  deriving DecidableEq, Repr

structure HostPathVolumeSource where
  Path : String
  deriving DecidableEq, Repr

structure PersistentVolumeSource where
  HostPath : Option HostPathVolumeSource
  deriving DecidableEq, Repr

structure PersistentVolumeSpec where
  PersistentVolumeReclaimPolicy : String
  AccessModes : List String
  Capacity : ResourceList
  PersistentVolumeSource : PersistentVolumeSource
  deriving DecidableEq, Repr

structure PersistentVolume where
  ObjectMeta : ObjectMeta
  Spec : PersistentVolumeSpec
  deriving DecidableEq, Repr

/-! ## The program -/

def provisionerName : String := "hostpath.external-storage.incubator.kubernetes.io"

def provisionerIdentityAnnotation : String := provisionerName ++ "/ID"

structure hostPathProvisioner where
  Identity : String
  Root : String
  deriving DecidableEq, Repr

def NewHostPathProvisioner (nodeName root : String) : hostPathProvisioner :=
  { Identity := nodeName, Root := root }

/-- `Provision creates a storage asset and returns a PV object representing it.` The
results are the pair `(*v1.PersistentVolume, error)` and the file system afterwards. The
volume is built after `MkdirAll` has returned; building it reads `options.PVC.Spec`, which
panics when `options.PVC` is nil. -/
def Provision (p : hostPathProvisioner) (options : VolumeOptions) (fs : FS) :
    Outcome (Option PersistentVolume × Option GoError) × FS :=
  let path := Join [p.Root, options.PVName]
  match MkdirAll fs path with
  | (some err, fs1) => (Outcome.returned (none, some (GoError.pathError err)), fs1)
  | (none, fs1) =>
    match options.PVC with
    | none => (Outcome.panicked nilDereference, fs1)
    | some claim =>
      let pv : PersistentVolume :=
        { ObjectMeta :=
            { Name := options.PVName
              Annotations := [( provisionerIdentityAnnotation, p.Identity)] }
          Spec :=
            { PersistentVolumeReclaimPolicy := options.PersistentVolumeReclaimPolicy
              AccessModes := claim.Spec.AccessModes
              Capacity :=
                [(ResourceStorage, claim.Spec.Resources.Requests.index ResourceStorage)]
              PersistentVolumeSource := { HostPath := some { Path := path } } } }
      (Outcome.returned (some pv, none), fs1)

/-- `Delete removes the storage asset that was created by Provision represented by the
given PV.` The results are the `error` and the file system afterwards. -/
def Delete (p : hostPathProvisioner) (volume : PersistentVolume) (fs : FS) :
    Option GoError × FS :=
  match mapGet volume.ObjectMeta.Annotations provisionerIdentityAnnotation with
  | none => (some (GoError.errorString "identity annotation not found on PV"), fs)
  | some ann =>
    if ann ≠ p.Identity then
      (some (GoError.IgnoredError "identity annotation on PV does not match ours"), fs)
    else
      let path := Join [p.Root, volume.ObjectMeta.Name]
      match RemoveAll fs path with
      | (some err, fs1) => (some (GoError.pathError err), fs1)
      | (none, fs1) => (none, fs1)

/-- The flag values of a `cli.Context`. -/
structure Context where
  flags : List (String × String)
  deriving DecidableEq, Repr

/-- Go `c.String(name)`: the value of the flag, empty when it is not set. -/
def Context.String (c : Context) (name : String) : String :=
  (mapGet c.flags name).getD ""

/-- Go `cli.ExitError`. -/
structure ExitError where
  message : String
  exitCode : Int
  deriving DecidableEq, Repr

def NewExitError (message : String) (exitCode : Int) : ExitError :=
  { message := message, exitCode := exitCode }

/-- The calls `Run` makes after its configuration check, in order. -/
inductive Call
  | NewHostPathProvisioner (nodeName root : String)
  | Start (p : hostPathProvisioner)
  deriving DecidableEq, Repr

/-- The action of the command. `Start` builds the cluster client and runs the provision
controller; what it returns is outside this file and is the parameter `start`. The second
result records the calls made. -/
def Run (start : hostPathProvisioner → Option GoError) (c : Context) :
    Option ExitError × List Call :=
  let nodeName := c.String "node-name"
  if nodeName = "" then (some (NewExitError "node-name is mandatory" 1), [])
  else
    let root := c.String "root"
    if root = "" then (some (NewExitError "root path is mandatory" 1), [])
    else
      let p := NewHostPathProvisioner nodeName root
      match start p with
      | some err =>
        (some (NewExitError err.Error 1), [Call.NewHostPathProvisioner nodeName root, Call.Start p])
      | none => (none, [Call.NewHostPathProvisioner nodeName root, Call.Start p])

/-- Whether something exists at the path, that is, whether `lstat` succeeds. -/
def pathExists (fs : FS) (path : String) : Bool :=
  match sysLstat fs path with
  | Except.ok _ => true
  | Except.error _ => false

/-- Whether `lstat` reports that the path does not exist (`ENOENT`, what `os.IsNotExist`
tests): the entry, or a directory on the way to it, is missing, and no component on the
way is a regular file. -/
def notExist (fs : FS) (path : String) : Bool :=
  match sysLstat fs path with
  | Except.error Errno.ENOENT => true
  | _ => false

/-! ## Path vocabulary used in the statements -/

/-- A path element `Clean` copies unchanged: non-empty, without `/`, not `.` or `..`. -/
def isSegment (s : List Char) : Prop :=
  s ≠ [] ∧ '/' ∉ s ∧ s ≠ ['.'] ∧ s ≠ ['.', '.']

/-- What the real-element branch of `Clean` writes for element `s` after buffer `o`. -/
def appendSegment (rooted : Bool) (o s : List Char) : List Char :=
  (if (rooted = true ∧ o.length ≠ 1) ∨ (rooted = false ∧ o.length ≠ 0) then o ++ ['/']
    else o) ++ s

/-- The buffer is empty or its first element is neither empty nor `.`. -/
def firstOK (out : List Char) : Prop :=
  out = [] ∨ (out.takeWhile (fun x => x != '/') ≠ [] ∧ out.takeWhile (fun x => x != '/') ≠ ['.'])

/-- Loop invariant of `Clean` on a relative path. -/
def relInv (out : List Char) (dd : Nat) : Prop :=
  dd ≤ out.length ∧ firstOK out ∧ (dd = 0 ∨ (out.takeWhile (fun x => x != '/')).length ≤ dd)

/-- No element of the buffer, split at `/`, is the element `.`. -/
def noDotSegment (out : List Char) : Prop := ['.'] ∉ splitSlash out

/-- Loop invariant of `Clean`: no `.` element has been written, and none is left when the
buffer is cut back to `dotdot`. -/
def cleanInv (out : List Char) (dd : Nat) : Prop :=
  dd ≤ out.length ∧ noDotSegment out ∧ noDotSegment (out.take dd)

/-- The entry `s` of the directory with cleaned path `c`, on bytes. -/
def childChars (c s : List Char) : List Char :=
  if c = ['/'] then '/' :: s else if c = ['.'] then s else c ++ '/' :: s

instance (s : List Char) : Decidable (isSegment s) := by
  unfold isSegment
  exact inferInstance

/-- A name that is a single path segment: non-empty, no `/`, not `.` and not `..`. -/
def isSingleSegment (name : String) : Prop := isSegment name.data

instance (name : String) : Decidable (isSingleSegment name) := by
  unfold isSingleSegment
  exact inferInstance

/-- The entry `name` of the directory with cleaned path `dir`. -/
def childPath (dir name : String) : String :=
  if dir = "/" then "/" ++ name else if dir = "." then name else dir ++ "/" ++ name

/-- Whether a piece between separators is an ordinary name: not empty, `.` or `..`. -/
def ordinaryName (seg : List Char) : Bool :=
  decide (seg ≠ [] ∧ seg ≠ ['.'] ∧ seg ≠ ['.', '.'])

/-- Spec wording, "a strict descendant of Root": the path is the cleaned root followed by
one or more ordinary names. -/
def isStrictDescendant (root q : String) : Bool :=
  (childPath (Clean root) "").data.isPrefixOf q.data &&
    (splitSlash (q.data.drop (childPath (Clean root) "").data.length)).all ordinaryName

/-- Spec wording, "a prefix directory of": `b` lies below the directory `a`. -/
def isPrefixDirectory (a b : String) : Bool :=
  a.data.isPrefixOf b.data && a.data != b.data &&
    (a.data.getLast? == some '/' || (b.data.drop a.data.length).head? == some '/')

/-! ## Example states used by the worked instances -/

def exampleFS : FS :=
  { cwd := ["home"]
    entries :=
      [(["home"], FileKind.directory), (["tmp"], FileKind.directory),
       (["etc"], FileKind.regular)] }

def exampleProvisioner : hostPathProvisioner :=
  NewHostPathProvisioner "node-1" "/tmp/hostpath-provisioner"

def exampleClaim : PersistentVolumeClaim :=
  { Spec :=
      { AccessModes := ["ReadWriteOnce"]
        Resources := { Requests := [("storage", ⟨1073741824000⟩)] } } }

def exampleOptions : VolumeOptions :=
  { PersistentVolumeReclaimPolicy := "Delete", PVName := "pvc-1", PVC := some exampleClaim }

/-- Options without a claim: `PVC` is nil. -/
def nilClaimOptions : VolumeOptions :=
  { PersistentVolumeReclaimPolicy := "Delete", PVName := "pvc-1", PVC := none }

/-- A provisioner whose root `/etc` is a regular file in `exampleFS`. -/
def fileRootProvisioner : hostPathProvisioner :=
  NewHostPathProvisioner "node-1" "/etc"

/-- Options whose volume name is the parent element `..`. -/
def escapingOptions : VolumeOptions :=
  { PersistentVolumeReclaimPolicy := "Delete", PVName := "..", PVC := some exampleClaim }

/-- A volume owned by `exampleProvisioner` whose name is the parent element `..`. -/
def escapingVolume : PersistentVolume :=
  { ObjectMeta := { Name := "..", Annotations := [( provisionerIdentityAnnotation, "node-1")] }
    Spec :=
      { PersistentVolumeReclaimPolicy := "Delete"
        AccessModes := ["ReadWriteOnce"]
        Capacity := [("storage", ⟨1073741824000⟩)]
        PersistentVolumeSource := { HostPath := some { Path := "/tmp" } } } }

def exampleVolume (annotations : List (String × String)) : PersistentVolume :=
  { ObjectMeta := { Name := "pvc-1", Annotations := annotations }
    Spec :=
      { PersistentVolumeReclaimPolicy := "Delete"
        AccessModes := ["ReadWriteOnce"]
        Capacity := [("storage", ⟨1073741824000⟩)]
        PersistentVolumeSource :=
          { HostPath := some { Path := "/tmp/hostpath-provisioner/pvc-1" } } } }

/-- The example file system after `exampleProvisioner` has provisioned `pvc-1`. -/
def provisionedFS : FS :=
  { cwd := ["home"]
    entries :=
      [(["tmp", "hostpath-provisioner", "pvc-1"], FileKind.directory),
       (["tmp", "hostpath-provisioner"], FileKind.directory),
       (["home"], FileKind.directory), (["tmp"], FileKind.directory),
       (["etc"], FileKind.regular)] }

/-- The file system `provisionedFS` after the directory of `pvc-1` has been removed. -/
def releasedFS : FS :=
  { cwd := ["home"]
    entries :=
      [(["tmp", "hostpath-provisioner"], FileKind.directory),
       (["home"], FileKind.directory), (["tmp"], FileKind.directory),
       (["etc"], FileKind.regular)] }

def ownedVolume : PersistentVolume :=
  exampleVolume [( provisionerIdentityAnnotation, "node-1")]

/-! ## Facts about `path.Clean` and `path.Join` -/

theorem takeWhile_notSlash_of_not_mem (s : List Char) (h : '/' ∉ s) :
    s.takeWhile (fun x => x != '/') = s := by
  induction s with
  | nil => rfl
  | cons c cs ih =>
    simp only [List.mem_cons, not_or] at h
    have hc : (c != '/') = true := by simpa using fun hh => h.1 hh.symm
    rw [List.takeWhile_cons, hc]
    simp [ih h.2]

theorem dropWhile_notSlash_of_not_mem (s : List Char) (h : '/' ∉ s) :
    s.dropWhile (fun x => x != '/') = [] := by
  induction s with
  | nil => rfl
  | cons c cs ih =>
    simp only [List.mem_cons, not_or] at h
    have hc : (c != '/') = true := by simpa using fun hh => h.1 hh.symm
    rw [List.dropWhile_cons, hc]
    simp [ih h.2]

theorem takeWhile_notSlash_append (a s : List Char) :
    (a ++ '/' :: s).takeWhile (fun x => x != '/') = a.takeWhile (fun x => x != '/') := by
  induction a with
  | nil => simp
  | cons c cs ih =>
    by_cases hc : c = '/'
    · simp [hc]
    · simp [List.takeWhile_cons, hc, ih]

theorem dropWhile_notSlash_append (a s : List Char) :
    (a ++ '/' :: s).dropWhile (fun x => x != '/') =
      a.dropWhile (fun x => x != '/') ++ '/' :: s := by
  induction a with
  | nil => simp
  | cons c cs ih =>
    by_cases hc : c = '/'
    · simp [hc]
    · simp [List.dropWhile_cons, hc, ih]

theorem cleanLoop_nil (rooted : Bool) (fuel : Nat) (out : List Char) (dd : Nat) :
    cleanLoop rooted fuel [] out dd = out := by
  cases fuel <;> rfl

/-- One iteration of `Clean` on a single real element. -/
theorem cleanLoop_segment (rooted : Bool) (fuel : Nat) (s out : List Char) (dd : Nat)
    (hs : isSegment s) :
    cleanLoop rooted (fuel + 1) s out dd = appendSegment rooted out s := by
  obtain ⟨hne, hsl, hd, hdd⟩ := hs
  cases s with
  | nil => exact absurd rfl hne
  | cons c cs =>
    have hc : c ≠ '/' := fun h => hsl (by simp [h])
    have hcs : '/' ∉ cs := fun h => hsl (List.mem_cons_of_mem _ h)
    have hdot : ¬ (c = '.' ∧ (cs = [] ∨ cs.head? = some '/')) := by
      rintro ⟨h1, h2 | h2⟩
      · exact hd (by rw [h1, h2])
      · cases cs with
        | nil => simp at h2
        | cons d t =>
          simp at h2
          exact hcs (by simp [h2])
    have hdotdot : ¬ (c = '.' ∧ cs.head? = some '.' ∧ (cs.tail = [] ∨ cs.tail.head? = some '/')) := by
      rintro ⟨h1, h2, h3⟩
      cases cs with
      | nil => simp at h2
      | cons d t =>
        simp at h2 h3
        rcases h3 with h3 | h3
        · exact hdd (by rw [h1, h2, h3])
        · cases t with
          | nil => simp at h3
          | cons e u =>
            simp at h3
            exact hcs (by simp [h3])
    rw [cleanLoop]
    simp only [hc, if_false, hdot, hdotdot]
    rw [takeWhile_notSlash_of_not_mem (c :: cs) hsl, dropWhile_notSlash_of_not_mem (c :: cs) hsl,
      cleanLoop_nil]
    rfl

theorem dot_cond_append (c : Char) (cs s : List Char) :
    (c = '.' ∧ (cs ++ '/' :: s = [] ∨ (cs ++ '/' :: s).head? = some '/')) ↔
      (c = '.' ∧ (cs = [] ∨ cs.head? = some '/')) := by
  cases cs with
  | nil => simp
  | cons d t => simp

theorem dotdot_cond_append (c : Char) (cs s : List Char) :
    (c = '.' ∧ (cs ++ '/' :: s).head? = some '.' ∧
        ((cs ++ '/' :: s).tail = [] ∨ (cs ++ '/' :: s).tail.head? = some '/')) ↔
      (c = '.' ∧ cs.head? = some '.' ∧ (cs.tail = [] ∨ cs.tail.head? = some '/')) := by
  cases cs with
  | nil => simp
  | cons d t =>
    cases t with
    | nil => simp
    | cons e u => simp

theorem tail_append_of_head (cs s : List Char) (h : cs.head? = some '.') :
    (cs ++ '/' :: s).tail = cs.tail ++ '/' :: s := by
  cases cs with
  | nil => simp at h
  | cons d t => simp

theorem length_dropWhile_le (p : Char → Bool) (l : List Char) :
    (l.dropWhile p).length ≤ l.length := by
  induction l with
  | nil => simp
  | cons c cs ih =>
    rw [List.dropWhile_cons]
    split
    · exact Nat.le_succ_of_le ih
    · exact Nat.le_refl _

/-- Fuel beyond the length of the unread input is never used by `cleanLoop`: with
`len(path)` units the loop of `Clean` runs to the end of the path. -/
theorem cleanLoop_fuel (rooted : Bool) (n : Nat) :
    ∀ (rest out : List Char) (dd f1 f2 : Nat), rest.length ≤ n → n ≤ f1 → n ≤ f2 →
      cleanLoop rooted f1 rest out dd = cleanLoop rooted f2 rest out dd := by
  induction n with
  | zero =>
    intro rest out dd f1 f2 hr _ _
    have h0 : rest = [] := List.length_eq_zero.1 (Nat.le_zero.1 hr)
    subst h0
    rw [cleanLoop_nil, cleanLoop_nil]
  | succ n ih =>
    intro rest out dd f1 f2 hr hf1 hf2
    cases rest with
    | nil => rw [cleanLoop_nil, cleanLoop_nil]
    | cons c cs =>
      obtain ⟨g1, rfl⟩ : ∃ g, f1 = g + 1 := ⟨f1 - 1, by omega⟩
      obtain ⟨g2, rfl⟩ : ∃ g, f2 = g + 1 := ⟨f2 - 1, by omega⟩
      have hcs : cs.length ≤ n := by simpa using hr
      have ht : cs.tail.length ≤ n := by
        rw [List.length_tail]
        omega
      rw [cleanLoop, cleanLoop]
      by_cases h1 : c = '/'
      · rw [if_pos h1, if_pos h1]
        exact ih _ _ _ g1 g2 hcs (by omega) (by omega)
      · rw [if_neg h1, if_neg h1]
        by_cases h2 : c = '.' ∧ (cs = [] ∨ cs.head? = some '/')
        · rw [if_pos h2, if_pos h2]
          exact ih _ _ _ g1 g2 hcs (by omega) (by omega)
        · rw [if_neg h2, if_neg h2]
          by_cases h3 : c = '.' ∧ cs.head? = some '.' ∧
              (cs.tail = [] ∨ cs.tail.head? = some '/')
          · rw [if_pos h3, if_pos h3]
            by_cases h4 : dd < out.length
            · rw [if_pos h4, if_pos h4]
              exact ih _ _ _ g1 g2 ht (by omega) (by omega)
            · rw [if_neg h4, if_neg h4]
              by_cases h5 : rooted = false
              · rw [if_pos h5, if_pos h5]
                exact ih _ _ _ g1 g2 ht (by omega) (by omega)
              · rw [if_neg h5, if_neg h5]
                exact ih _ _ _ g1 g2 ht (by omega) (by omega)
          · rw [if_neg h3, if_neg h3]
            have hd : ((c :: cs).dropWhile (fun x => x != '/')).length ≤ n := by
              have hc : (c != '/') = true := by simpa using h1
              rw [List.dropWhile_cons, hc]
              simp only [if_true]
              exact Nat.le_trans (length_dropWhile_le _ _) hcs
            exact ih _ _ _ g1 g2 hd (by omega) (by omega)

/-- Running `Clean` on `a/s`, where `s` is a real element, is running it on `a` and then
writing `s`. -/
theorem cleanLoop_append_segment (rooted : Bool) (s : List Char) (hs : isSegment s) (n : Nat) :
    ∀ (a out : List Char) (dd f1 f2 : Nat), a.length ≤ n → n ≤ f2 → n + 2 ≤ f1 →
      cleanLoop rooted f1 (a ++ '/' :: s) out dd =
        appendSegment rooted (cleanLoop rooted f2 a out dd) s := by
  induction n with
  | zero =>
    intro a out dd f1 f2 ha _ hf1
    have ha0 : a = [] := List.length_eq_zero.1 (Nat.le_zero.1 ha)
    subst ha0
    obtain ⟨g, rfl⟩ : ∃ g, f1 = g + 2 := ⟨f1 - 2, by omega⟩
    rw [cleanLoop_nil, List.nil_append, cleanLoop]
    simp only [if_true]
    exact cleanLoop_segment rooted g s out dd hs
  | succ n ih =>
    intro a out dd f1 f2 ha hf2 hf1
    cases a with
    | nil =>
      obtain ⟨g, rfl⟩ : ∃ g, f1 = g + 2 := ⟨f1 - 2, by omega⟩
      rw [cleanLoop_nil, List.nil_append, cleanLoop]
      simp only [if_true]
      exact cleanLoop_segment rooted g s out dd hs
    | cons c cs =>
      obtain ⟨g1, rfl⟩ : ∃ g, f1 = g + 1 := ⟨f1 - 1, by omega⟩
      obtain ⟨g2, rfl⟩ : ∃ g, f2 = g + 1 := ⟨f2 - 1, by omega⟩
      have hcs : cs.length ≤ n := by simpa using ha
      rw [List.cons_append, cleanLoop, cleanLoop]
      by_cases h1 : c = '/'
      · simp only [h1, if_true]
        exact ih cs out dd g1 g2 hcs (by omega) (by omega)
      · simp only [h1, if_false]
        simp only [dot_cond_append, dotdot_cond_append]
        by_cases h2 : c = '.' ∧ (cs = [] ∨ cs.head? = some '/')
        · simp only [h2, if_true]
          exact ih cs out dd g1 g2 hcs (by omega) (by omega)
        · simp only [h2, if_false]
          by_cases h3 : c = '.' ∧ cs.head? = some '.' ∧
              (cs.tail = [] ∨ cs.tail.head? = some '/')
          · simp only [h3, if_true]
            rw [tail_append_of_head cs s h3.2.1]
            have ht : cs.tail.length ≤ n := by
              rw [List.length_tail]
              omega
            by_cases h4 : dd < out.length
            · rw [if_pos h4, if_pos h4]
              exact ih _ _ _ g1 g2 ht (by omega) (by omega)
            · rw [if_neg h4, if_neg h4]
              by_cases h5 : rooted = false
              · rw [if_pos h5, if_pos h5]
                exact ih _ _ _ g1 g2 ht (by omega) (by omega)
              · rw [if_neg h5, if_neg h5]
                exact ih _ _ _ g1 g2 ht (by omega) (by omega)
          · simp only [h3, if_false]
            rw [← List.cons_append, dropWhile_notSlash_append, takeWhile_notSlash_append]
            have hd : ((c :: cs).dropWhile (fun x => x != '/')).length ≤ n := by
              have hc : (c != '/') = true := by simpa using h1
              rw [List.dropWhile_cons, hc]
              simp only [if_true]
              exact Nat.le_trans (length_dropWhile_le _ _) hcs
            exact ih _ _ _ g1 g2 hd (by omega) (by omega)

theorem backtrack_le (out : List Char) (dd : Nat) : ∀ w, backtrack out dd w ≤ w := by
  intro w
  induction w with
  | zero => simp [backtrack]
  | succ w ih =>
    rw [backtrack]
    split
    · exact Nat.le_succ_of_le ih
    · exact Nat.le_refl _

theorem backtrack_ge (out : List Char) (dd : Nat) : ∀ w, dd ≤ w → dd ≤ backtrack out dd w := by
  intro w
  induction w with
  | zero => intro h; simpa [backtrack] using h
  | succ w ih =>
    intro h
    rw [backtrack]
    split
    · rename_i hc
      exact ih (Nat.le_of_lt_succ hc.1)
    · exact h

theorem backtrack_stop (out : List Char) (dd : Nat) :
    ∀ w, dd ≤ w → backtrack out dd w = dd ∨ out.getD (backtrack out dd w) '/' = '/' := by
  intro w
  induction w with
  | zero =>
    intro h
    left
    simp [backtrack]
    omega
  | succ w ih =>
    intro h
    rw [backtrack]
    split
    · rename_i hc
      exact ih (Nat.le_of_lt_succ hc.1)
    · rename_i hc
      by_cases hlt : dd < w + 1
      · right
        by_contra hne
        exact hc ⟨hlt, hne⟩
      · left
        omega

/-! ### The buffer of `Clean` on a rooted path starts with `/` -/

theorem cleanLoop_rooted_head (fuel : Nat) :
    ∀ (rest out : List Char), out.head? = some '/' →
      (cleanLoop true fuel rest out 1).head? = some '/' := by
  induction fuel with
  | zero => intro rest out h; simpa [cleanLoop] using h
  | succ fuel ih =>
    intro rest out h
    cases rest with
    | nil => simpa [cleanLoop] using h
    | cons c cs =>
      rw [cleanLoop]
      split
      · exact ih _ _ h
      · split
        · exact ih _ _ h
        · split
          · split
            · rename_i hlt
              apply ih
              have hge : 1 ≤ backtrack out 1 (out.length - 1) :=
                backtrack_ge out 1 _ (by omega)
              cases out with
              | nil => simp at h
              | cons o os =>
                obtain ⟨k, hk⟩ : ∃ k, backtrack (o :: os) 1 ((o :: os).length - 1) = k + 1 :=
                  ⟨_, (Nat.succ_pred_eq_of_pos hge).symm⟩
                rw [hk]
                simpa using h
            · simp only [Bool.true_eq_false, if_false]
              exact ih _ _ h
          · apply ih
            cases out with
            | nil => simp at h
            | cons o os =>
              simp only [List.head?_cons, Option.some.injEq] at h
              subst h
              split <;> simp

/-! ### The buffer of `Clean` on a relative path never starts with an empty or `.` element -/

theorem length_takeWhile_le (p : Char → Bool) (l : List Char) :
    (l.takeWhile p).length ≤ l.length := by
  induction l with
  | nil => simp
  | cons c cs ih =>
    rw [List.takeWhile_cons]
    split
    · simpa using ih
    · simp

theorem length_takeWhile_le_of_getD (out : List Char) :
    ∀ r, out.getD r '/' = '/' → (out.takeWhile (fun x => x != '/')).length ≤ r := by
  induction out with
  | nil => intro r _; simp
  | cons c cs ih =>
    intro r h
    by_cases hc : c = '/'
    · simp [hc]
    · cases r with
      | zero => simp at h; exact absurd h hc
      | succ r =>
        simp only [List.getD_cons_succ] at h
        have := ih r h
        simp [List.takeWhile_cons, hc]
        exact this

theorem takeWhile_take_of_le (p : Char → Bool) (l : List Char) :
    ∀ r, (l.takeWhile p).length ≤ r → (l.take r).takeWhile p = l.takeWhile p := by
  induction l with
  | nil => intro r _; simp
  | cons c cs ih =>
    intro r h
    cases hp : p c with
    | false => cases r <;> simp [List.takeWhile_cons, hp]
    | true =>
      cases r with
      | zero => simp [List.takeWhile_cons, hp] at h
      | succ r =>
        simp only [List.takeWhile_cons, hp, if_true, List.length_cons,
          Nat.succ_le_succ_iff] at h
        simp [List.takeWhile_cons, hp, ih r h]

theorem firstOK_append_slash (out t : List Char) (hne : out ≠ []) (h : firstOK out) :
    firstOK (out ++ '/' :: t) := by
  right
  rw [takeWhile_notSlash_append]
  rcases h with h | h
  · exact absurd h hne
  · exact h

theorem relInv_backtrack (out : List Char) (dd : Nat) (h : relInv out dd)
    (hlt : dd < out.length) :
    relInv (out.take (backtrack out dd (out.length - 1))) dd := by
  obtain ⟨_, hf, h3⟩ := h
  have hge := backtrack_ge out dd (out.length - 1) (by omega)
  have hle := backtrack_le out dd (out.length - 1)
  have hstop := backtrack_stop out dd (out.length - 1) (by omega)
  generalize backtrack out dd (out.length - 1) = r at hge hle hstop
  have hK : r = 0 ∨ (out.takeWhile (fun x => x != '/')).length ≤ r := by
    rcases hstop with hs | hs
    · rcases h3 with h3 | h3
      · left; omega
      · right; omega
    · right
      exact length_takeWhile_le_of_getD out r hs
  refine ⟨by simp only [List.length_take]; omega, ?_, ?_⟩
  · rcases hK with hK | hK
    · left
      simp [hK]
    · rcases hf with hf | hf
      · left
        simp [hf]
      · right
        rw [takeWhile_take_of_le _ _ _ hK]
        exact hf
  · rcases hK with hK | hK
    · right
      simp [hK]
    · rw [takeWhile_take_of_le _ _ _ hK]
      rcases h3 with h3 | h3
      · left; exact h3
      · right; exact h3

theorem relInv_dotdot (out : List Char) (dd : Nat) (h : relInv out dd) :
    relInv ((if 0 < out.length then out ++ ['/'] else out) ++ ['.', '.'])
      ((if 0 < out.length then out ++ ['/'] else out) ++ ['.', '.']).length := by
  refine ⟨Nat.le_refl _, ?_, Or.inr (length_takeWhile_le _ _)⟩
  cases out with
  | nil =>
    right
    simp [List.takeWhile_cons]
  | cons o os =>
    have : (if 0 < (o :: os).length then (o :: os) ++ ['/'] else (o :: os)) ++ ['.', '.'] =
        (o :: os) ++ '/' :: ['.', '.'] := by simp
    rw [this]
    exact firstOK_append_slash _ _ (by simp) h.2.1

theorem relInv_element (out : List Char) (dd : Nat) (c : Char) (cs : List Char)
    (h : relInv out dd) (h1 : c ≠ '/') (h2 : ¬ (c = '.' ∧ (cs = [] ∨ cs.head? = some '/'))) :
    relInv ((if (false = true ∧ out.length ≠ 1) ∨ (false = false ∧ out.length ≠ 0) then
        out ++ ['/'] else out) ++ (c :: cs).takeWhile (fun x => x != '/')) dd := by
  have hc : (c != '/') = true := by simpa using h1
  have helem : (c :: cs).takeWhile (fun x => x != '/') =
      c :: cs.takeWhile (fun x => x != '/') := by
    rw [List.takeWhile_cons, hc]
    rfl
  cases out with
  | nil =>
    have hdd : dd = 0 := by
      have := h.1
      simpa using this
    simp only [List.length_nil, ne_eq, not_true_eq_false, and_false, or_false, if_false,
      List.nil_append, Bool.false_eq_true, false_and]
    have hidem : ((c :: cs).takeWhile (fun x => x != '/')).takeWhile (fun x => x != '/') =
        (c :: cs).takeWhile (fun x => x != '/') := by
      apply takeWhile_notSlash_of_not_mem
      intro hmem
      have := List.mem_takeWhile_imp hmem
      simp at this
    refine ⟨by omega, Or.inr ?_, Or.inl hdd⟩
    rw [hidem, helem]
    refine ⟨by simp, ?_⟩
    intro heq
    simp only [List.cons.injEq] at heq
    apply h2
    refine ⟨heq.1, ?_⟩
    cases cs with
    | nil => left; rfl
    | cons d t =>
      right
      by_cases hd : d = '/'
      · simp [hd]
      · simp [List.takeWhile_cons, hd] at heq
  | cons o os =>
    have : (if (false = true ∧ (o :: os).length ≠ 1) ∨ (false = false ∧ (o :: os).length ≠ 0)
        then (o :: os) ++ ['/'] else (o :: os)) ++ (c :: cs).takeWhile (fun x => x != '/') =
        (o :: os) ++ '/' :: (c :: cs).takeWhile (fun x => x != '/') := by simp
    rw [this]
    refine ⟨?_, firstOK_append_slash _ _ (by simp) h.2.1, ?_⟩
    · have := h.1
      simp only [List.length_append, List.length_cons] at this ⊢
      omega
    · rw [takeWhile_notSlash_append]
      exact h.2.2

theorem cleanLoop_relative_firstOK (fuel : Nat) :
    ∀ (rest out : List Char) (dd : Nat), relInv out dd →
      firstOK (cleanLoop false fuel rest out dd) := by
  induction fuel with
  | zero => intro rest out dd h; simpa [cleanLoop] using h.2.1
  | succ fuel ih =>
    intro rest out dd h
    cases rest with
    | nil => simpa [cleanLoop] using h.2.1
    | cons c cs =>
      rw [cleanLoop]
      by_cases h1 : c = '/'
      · rw [if_pos h1]
        exact ih _ _ _ h
      · rw [if_neg h1]
        by_cases h2 : c = '.' ∧ (cs = [] ∨ cs.head? = some '/')
        · rw [if_pos h2]
          exact ih _ _ _ h
        · rw [if_neg h2]
          by_cases h3 : c = '.' ∧ cs.head? = some '.' ∧
              (cs.tail = [] ∨ cs.tail.head? = some '/')
          · rw [if_pos h3]
            by_cases h4 : dd < out.length
            · rw [if_pos h4]
              exact ih _ _ _ (relInv_backtrack out dd h h4)
            · rw [if_neg h4, if_pos rfl]
              exact ih _ _ _ (relInv_dotdot out dd h)
          · rw [if_neg h3]
            exact ih _ _ _ (relInv_element out dd c cs h h1 h2)

theorem relInv_init : relInv [] 0 :=
  ⟨Nat.le_refl _, Or.inl rfl, Or.inl rfl⟩

theorem not_firstOK_slash : ¬ firstOK ['/'] := by
  intro h
  rcases h with h | h
  · simp at h
  · simp at h

theorem not_firstOK_dot : ¬ firstOK ['.'] := by
  intro h
  rcases h with h | h
  · simp at h
  · exact h.2 (by decide)

theorem cleanChars_segment (s : List Char) (hs : isSegment s) : cleanChars s = s := by
  have hne : s ≠ [] := hs.1
  have hhead : s.head? ≠ some '/' := by
    intro h
    cases s with
    | nil => simp at h
    | cons c cs =>
      simp at h
      exact hs.2.1 (by simp [h])
  obtain ⟨g, hg⟩ : ∃ g, s.length = g + 1 :=
    ⟨s.length - 1, by have := List.length_pos.2 hne; omega⟩
  unfold cleanChars
  simp only [hne, if_false, hhead, decide_False, Bool.false_eq_true]
  rw [hg, cleanLoop_segment false g s [] 0 hs]
  simp [appendSegment, hne]

theorem cleanChars_join (r s : List Char) (hs : isSegment s) (hr : r ≠ []) :
    cleanChars (r ++ '/' :: s) = childChars (cleanChars r) s := by
  have hsne : s ≠ [] := hs.1
  have hspos : 0 < s.length := List.length_pos.2 hsne
  cases r with
  | nil => exact absurd rfl hr
  | cons c cs =>
    unfold cleanChars
    simp only [List.cons_append, List.head?_cons, Option.some.injEq, List.tail_cons,
      List.length_cons, List.length_append, reduceCtorEq, if_false]
    by_cases hc : c = '/'
    · subst hc
      simp only [decide_True, if_true]
      have hO := cleanLoop_rooted_head (cs.length + 1) cs ['/'] rfl
      have hlen : ∀ F, cs.length + 2 ≤ F → cleanLoop true F (cs ++ '/' :: s) ['/'] 1 =
          appendSegment true (cleanLoop true (cs.length + 1) cs ['/'] 1) s :=
        fun F hF => cleanLoop_append_segment true s hs cs.length cs ['/'] 1 F (cs.length + 1)
          (Nat.le_refl _) (Nat.le_succ _) hF
      rw [hlen _ (by omega)]
      generalize cleanLoop true (cs.length + 1) cs ['/'] 1 = O at hO
      cases O with
      | nil => simp at hO
      | cons o os =>
        simp only [List.head?_cons, Option.some.injEq] at hO
        subst hO
        cases os with
        | nil => simp [appendSegment, childChars, hsne]
        | cons o2 os2 => simp [appendSegment, childChars]
    · simp only [hc, decide_False, Bool.false_eq_true, if_false]
      have hO := cleanLoop_relative_firstOK (cs.length + 1) (c :: cs) [] 0 relInv_init
      have hlen : ∀ F, cs.length + 3 ≤ F → cleanLoop false F (c :: (cs ++ '/' :: s)) [] 0 =
          appendSegment false (cleanLoop false (cs.length + 1) (c :: cs) [] 0) s :=
        fun F hF => cleanLoop_append_segment false s hs (cs.length + 1) (c :: cs) [] 0 F
          (cs.length + 1) (Nat.le_refl _) (Nat.le_refl _) hF
      rw [hlen _ (by omega)]
      generalize cleanLoop false (cs.length + 1) (c :: cs) [] 0 = O at hO
      cases O with
      | nil => simp [appendSegment, childChars, hsne]
      | cons o os =>
        have h1 : o :: os ≠ ['/'] := fun h => not_firstOK_slash (h ▸ hO)
        have h2 : o :: os ≠ ['.'] := fun h => not_firstOK_dot (h ▸ hO)
        simp [appendSegment, childChars, h1, h2]

theorem childPath_data (dir name : String) :
    (childPath dir name).data = childChars dir.data name.data := by
  unfold childPath childChars
  have h1 : dir = "/" ↔ dir.data = ['/'] := by
    rw [String.ext_iff]
  have h2 : dir = "." ↔ dir.data = ['.'] := by
    rw [String.ext_iff]
  by_cases c1 : dir.data = ['/']
  · rw [if_pos (h1.2 c1), if_pos c1]
    simp [String.data_append]
  · rw [if_neg (fun h => c1 (h1.1 h)), if_neg c1]
    by_cases c2 : dir.data = ['.']
    · rw [if_pos (h2.2 c2), if_pos c2]
    · rw [if_neg (fun h => c2 (h2.1 h)), if_neg c2]
      simp [String.data_append]

theorem Join_data (root name : String) (hs : isSingleSegment name) :
    (Join [root, name]).data = childChars (cleanChars root.data) name.data := by
  have hne : name.data ≠ [] := hs.1
  have hlen : 0 < name.length := List.length_pos.2 hne
  unfold Join
  have hsum : ([root, name].map String.length).sum ≠ 0 := by
    simp only [List.map_cons, List.map_nil, List.sum_cons, List.sum_nil]
    omega
  rw [if_neg hsum]
  simp only [List.map_cons, List.map_nil, Clean]
  by_cases hr : root.data = []
  · have : joinBuf [root.data, name.data] [] = name.data := by
      simp [joinBuf, hr, hne]
    rw [this, cleanChars_segment _ hs, hr]
    simp [cleanChars, childChars]
  · have : joinBuf [root.data, name.data] [] = root.data ++ '/' :: name.data := by
      have hpos : 0 < root.length := List.length_pos.2 hr
      simp [joinBuf, hpos, hr]
    rw [this, cleanChars_join _ _ hs hr]

theorem Join_single_segment (root name : String) (hs : isSingleSegment name) :
    Join [root, name] = childPath (Clean root) name := by
  apply String.ext
  rw [Join_data root name hs, childPath_data]
  rfl

theorem childChars_eq_append (c s : List Char) : childChars c s = childChars c [] ++ s := by
  unfold childChars
  split
  · rfl
  · split
    · rfl
    · simp

theorem splitSlash_of_not_mem (l : List Char) (h : '/' ∉ l) : splitSlash l = [l] := by
  induction l with
  | nil => rfl
  | cons c cs ih =>
    simp only [List.mem_cons, not_or] at h
    have hc : c ≠ '/' := fun hh => h.1 hh.symm
    rw [splitSlash, if_neg hc, ih h.2]

theorem Join_eq_prefix_append (root name : String) (hs : isSingleSegment name) :
    (Join [root, name]).data = (childPath (Clean root) "").data ++ name.data := by
  rw [Join_data root name hs, childChars_eq_append, childPath_data]
  rfl

theorem not_prefixDirectory_aux (pre a b : List Char) (ha : '/' ∉ a) (hb : '/' ∉ b)
    (hne : a ≠ []) :
    ((pre ++ a).isPrefixOf (pre ++ b) && (pre ++ a) != (pre ++ b) &&
      ((pre ++ a).getLast? == some '/' ||
        ((pre ++ b).drop (pre ++ a).length).head? == some '/')) = false := by
  by_contra hcon
  simp only [Bool.not_eq_false, Bool.and_eq_true, Bool.or_eq_true, beq_iff_eq,
    List.isPrefixOf_iff_prefix, List.prefix_append_right_inj] at hcon
  obtain ⟨⟨hpre, _⟩, hlast⟩ := hcon
  obtain ⟨t, rfl⟩ := hpre
  rcases hlast with hl | hl
  · rw [List.getLast?_append_of_ne_nil _ hne] at hl
    exact ha (List.mem_of_getLast?_eq_some hl)
  · rw [← List.append_assoc, List.drop_left] at hl
    cases t with
    | nil => simp at hl
    | cons x xs =>
      simp at hl
      exact hb (by simp [hl])

/-! ### `Clean` never returns a path ending in a `.` element, except `.` itself -/

theorem splitSlash_ne_nil (l : List Char) : splitSlash l ≠ [] := by
  cases l with
  | nil => simp [splitSlash]
  | cons c cs =>
    rw [splitSlash]
    split
    · simp
    · split <;> simp

theorem splitSlash_append (a b : List Char) :
    splitSlash (a ++ '/' :: b) = splitSlash a ++ splitSlash b := by
  induction a with
  | nil => simp [splitSlash]
  | cons c cs ih =>
    by_cases hc : c = '/'
    · simp [splitSlash, hc, ih]
    · rw [List.cons_append, splitSlash, if_neg hc, ih, splitSlash, if_neg hc]
      cases hs : splitSlash cs with
      | nil => exact absurd hs (splitSlash_ne_nil cs)
      | cons x xs => simp

theorem noDotSegment_take_of_slash (out : List Char) (w : Nat)
    (hw : out.getD w '/' = '/') (h : noDotSegment out) : noDotSegment (out.take w) := by
  by_cases hlt : w < out.length
  · have hsplit : out = out.take w ++ '/' :: out.drop (w + 1) := by
      have h1 : out.drop w = out[w] :: out.drop (w + 1) := List.drop_eq_getElem_cons hlt
      have h2 : out[w] = '/' := by
        rw [List.getD_eq_getElem _ _ hlt] at hw
        exact hw
      rw [← h2, ← h1, List.take_append_drop]
    unfold noDotSegment at h ⊢
    rw [hsplit, splitSlash_append] at h
    intro hmem
    exact h (List.mem_append_left _ hmem)
  · rw [List.take_of_length_le (Nat.le_of_not_lt hlt)]
    exact h

theorem noDotSegment_append_slash (out t : List Char) (h : noDotSegment out)
    (ht : '/' ∉ t) (hd : t ≠ ['.']) : noDotSegment (out ++ '/' :: t) := by
  unfold noDotSegment at h ⊢
  rw [splitSlash_append, splitSlash_of_not_mem t ht]
  intro hmem
  rcases List.mem_append.1 hmem with h1 | h1
  · exact h h1
  · simp only [List.mem_singleton] at h1
    exact hd h1.symm

theorem noDotSegment_of_not_mem (t : List Char) (ht : '/' ∉ t) (hd : t ≠ ['.']) :
    noDotSegment t := by
  unfold noDotSegment
  rw [splitSlash_of_not_mem t ht]
  simp only [List.mem_singleton]
  exact fun h => hd h.symm

theorem element_facts (c : Char) (cs : List Char) (h1 : c ≠ '/')
    (h2 : ¬ (c = '.' ∧ (cs = [] ∨ cs.head? = some '/'))) :
    '/' ∉ (c :: cs).takeWhile (fun x => x != '/') ∧
      (c :: cs).takeWhile (fun x => x != '/') ≠ ['.'] ∧
      ∃ t, (c :: cs).takeWhile (fun x => x != '/') = c :: t := by
  have hc : (c != '/') = true := by simpa using h1
  have helem : (c :: cs).takeWhile (fun x => x != '/') =
      c :: cs.takeWhile (fun x => x != '/') := by
    rw [List.takeWhile_cons, hc]
    rfl
  refine ⟨?_, ?_, ⟨_, helem⟩⟩
  · intro hmem
    have := List.mem_takeWhile_imp hmem
    simp at this
  · rw [helem]
    intro heq
    simp only [List.cons.injEq] at heq
    apply h2
    refine ⟨heq.1, ?_⟩
    cases cs with
    | nil => left; rfl
    | cons d t =>
      right
      by_cases hd : d = '/'
      · simp [hd]
      · simp [List.takeWhile_cons, hd] at heq

theorem cleanInv_backtrack (out : List Char) (dd : Nat) (h : cleanInv out dd)
    (hlt : dd < out.length) :
    cleanInv (out.take (backtrack out dd (out.length - 1))) dd := by
  obtain ⟨_, hS, hT⟩ := h
  have hge := backtrack_ge out dd (out.length - 1) (by omega)
  have hle := backtrack_le out dd (out.length - 1)
  have hstop := backtrack_stop out dd (out.length - 1) (by omega)
  generalize backtrack out dd (out.length - 1) = w at hge hle hstop
  refine ⟨by simp only [List.length_take]; omega, ?_, ?_⟩
  · rcases hstop with hs | hs
    · rw [hs]
      exact hT
    · exact noDotSegment_take_of_slash out w hs hS
  · rw [List.take_take, Nat.min_eq_left hge]
    exact hT

theorem cleanInv_dotdot (out : List Char) (dd : Nat) (h : cleanInv out dd) :
    cleanInv ((if 0 < out.length then out ++ ['/'] else out) ++ ['.', '.'])
      ((if 0 < out.length then out ++ ['/'] else out) ++ ['.', '.']).length := by
  have hS : noDotSegment ((if 0 < out.length then out ++ ['/'] else out) ++ ['.', '.']) := by
    cases out with
    | nil =>
      simp only [List.length_nil, Nat.lt_irrefl, if_false, List.nil_append]
      exact noDotSegment_of_not_mem _ (by decide) (by decide)
    | cons o os =>
      have : (if 0 < (o :: os).length then (o :: os) ++ ['/'] else (o :: os)) ++ ['.', '.'] =
          (o :: os) ++ '/' :: ['.', '.'] := by simp
      rw [this]
      exact noDotSegment_append_slash _ _ h.2.1 (by decide) (by decide)
  refine ⟨Nat.le_refl _, hS, ?_⟩
  rw [List.take_length]
  exact hS

theorem cleanInv_element (rooted : Bool) (out : List Char) (dd : Nat) (c : Char)
    (cs : List Char) (h : cleanInv out dd) (h1 : c ≠ '/')
    (h2 : ¬ (c = '.' ∧ (cs = [] ∨ cs.head? = some '/'))) :
    cleanInv ((if (rooted = true ∧ out.length ≠ 1) ∨ (rooted = false ∧ out.length ≠ 0) then
        out ++ ['/'] else out) ++ (c :: cs).takeWhile (fun x => x != '/')) dd := by
  obtain ⟨hsl, hnd, t, ht⟩ := element_facts c cs h1 h2
  obtain ⟨hdd, hS, hT⟩ := h
  generalize (c :: cs).takeWhile (fun x => x != '/') = elem at hsl hnd ht
  by_cases hcond : (rooted = true ∧ out.length ≠ 1) ∨ (rooted = false ∧ out.length ≠ 0)
  · rw [if_pos hcond]
    have : (out ++ ['/']) ++ elem = out ++ '/' :: elem := by simp
    rw [this]
    refine ⟨by simp only [List.length_append]; omega, noDotSegment_append_slash _ _ hS hsl hnd, ?_⟩
    rw [List.take_append_of_le_length hdd]
    exact hT
  · rw [if_neg hcond]
    refine ⟨by simp only [List.length_append]; omega, ?_, ?_⟩
    · cases out with
      | nil =>
        rw [List.nil_append]
        exact noDotSegment_of_not_mem _ hsl hnd
      | cons o os =>
        cases os with
        | nil =>
          by_cases ho : o = '/'
          · subst ho
            have : ['/'] ++ elem = [] ++ '/' :: elem := rfl
            rw [this]
            exact noDotSegment_append_slash _ _ (by unfold noDotSegment; simp [splitSlash]) hsl hnd
          · apply noDotSegment_of_not_mem
            · intro hmem
              simp only [List.singleton_append, List.mem_cons] at hmem
              rcases hmem with hm | hm
              · exact ho hm.symm
              · exact hsl hm
            · rw [ht]
              simp
        | cons o2 os2 =>
          exfalso
          apply hcond
          cases rooted
          · right
            simp
          · left
            simp
    · rw [List.take_append_of_le_length hdd]
      exact hT

theorem cleanLoop_noDotSegment (rooted : Bool) (fuel : Nat) :
    ∀ (rest out : List Char) (dd : Nat), cleanInv out dd →
      noDotSegment (cleanLoop rooted fuel rest out dd) := by
  induction fuel with
  | zero => intro rest out dd h; simpa [cleanLoop] using h.2.1
  | succ fuel ih =>
    intro rest out dd h
    cases rest with
    | nil => simpa [cleanLoop] using h.2.1
    | cons c cs =>
      rw [cleanLoop]
      by_cases h1 : c = '/'
      · rw [if_pos h1]
        exact ih _ _ _ h
      · rw [if_neg h1]
        by_cases h2 : c = '.' ∧ (cs = [] ∨ cs.head? = some '/')
        · rw [if_pos h2]
          exact ih _ _ _ h
        · rw [if_neg h2]
          by_cases h3 : c = '.' ∧ cs.head? = some '.' ∧
              (cs.tail = [] ∨ cs.tail.head? = some '/')
          · rw [if_pos h3]
            by_cases h4 : dd < out.length
            · rw [if_pos h4]
              exact ih _ _ _ (cleanInv_backtrack out dd h h4)
            · rw [if_neg h4]
              by_cases h5 : rooted = false
              · rw [if_pos h5]
                exact ih _ _ _ (cleanInv_dotdot out dd h)
              · rw [if_neg h5]
                exact ih _ _ _ h
          · rw [if_neg h3]
            exact ih _ _ _ (cleanInv_element rooted out dd c cs h h1 h2)

theorem noDotSegment_not_endsWithDot (l : List Char) (h : noDotSegment l) :
    l ≠ ['.'] ∧ ∀ pre, l ≠ pre ++ ['/', '.'] := by
  unfold noDotSegment at h
  constructor
  · intro hl
    apply h
    rw [hl]
    simp [splitSlash]
  · intro pre hl
    apply h
    rw [hl, splitSlash_append]
    simp [splitSlash]

theorem cleanInv_rooted : cleanInv ['/'] 1 := by
  refine ⟨Nat.le_refl _, ?_, ?_⟩ <;> (unfold noDotSegment; simp [splitSlash])

theorem cleanInv_relative : cleanInv [] 0 := by
  refine ⟨Nat.le_refl _, ?_, ?_⟩ <;> (unfold noDotSegment; simp [splitSlash])

theorem cleanChars_noDotSegment (path : List Char) :
    cleanChars path = ['.'] ∨ noDotSegment (cleanChars path) := by
  unfold cleanChars
  by_cases hp : path = []
  · left
    rw [if_pos hp]
  · rw [if_neg hp]
    simp only
    split
    · have hout := cleanLoop_noDotSegment true path.length path.tail ['/'] 1 cleanInv_rooted
      split
      · left
        rfl
      · right
        exact hout
    · have hout := cleanLoop_noDotSegment false path.length path [] 0 cleanInv_relative
      split
      · left
        rfl
      · right
        exact hout

theorem endsWithDot_cases (path : String) (h : endsWithDot path = true) :
    path.data = ['.'] ∨ ∃ pre, path.data = pre ++ ['/', '.'] := by
  unfold endsWithDot at h
  simp only [Bool.or_eq_true, Bool.and_eq_true, decide_eq_true_eq, beq_iff_eq] at h
  rcases h with h | ⟨⟨hlen, hlast⟩, hprev⟩
  · left
    rw [h]
  · right
    generalize path.data = l at hlen hlast hprev
    obtain ⟨r, hr⟩ : ∃ r, l.reverse = r := ⟨_, rfl⟩
    have hl : l = r.reverse := by rw [← hr, List.reverse_reverse]
    subst hl
    cases r with
    | nil => simp at hlen
    | cons b r1 =>
      cases r1 with
      | nil => simp at hlen
      | cons a r2 =>
        refine ⟨r2.reverse, ?_⟩
        simp only [List.reverse_cons, List.append_assoc, List.singleton_append,
          List.length_append, List.length_reverse, List.length_cons, List.length_nil] at hlast hprev ⊢
        have e1 : r2.length + (0 + 1 + 1) - 1 = r2.length + 1 := by omega
        have e2 : r2.length + (0 + 1 + 1) - 2 = r2.length := by omega
        rw [e1] at hlast
        rw [e2] at hprev
        have hb : (r2.reverse ++ [a, b]).getD (r2.length + 1) ' ' = b := by
          rw [List.getD_eq_getElem?_getD, List.getElem?_append_right (by simp)]
          simp
        have ha : (r2.reverse ++ [a, b]).getD r2.length ' ' = a := by
          rw [List.getD_eq_getElem?_getD, List.getElem?_append_right (by simp)]
          simp
        rw [hb] at hlast
        rw [ha] at hprev
        rw [hlast, hprev]

theorem Clean_endsWithDot (path : String) (h : endsWithDot (Clean path) = true) :
    Clean path = "." := by
  apply String.ext
  show cleanChars path.data = ['.']
  rcases cleanChars_noDotSegment path.data with h1 | h1
  · exact h1
  · exfalso
    obtain ⟨hne, hpre⟩ := noDotSegment_not_endsWithDot _ h1
    rcases endsWithDot_cases _ h with h2 | ⟨pre, h2⟩
    · exact hne h2
    · exact hpre pre h2

theorem Join_endsWithDot (elem : List String) (h : endsWithDot (Join elem) = true) :
    Join elem = "." := by
  unfold Join at h ⊢
  split
  · rename_i hz
    rw [if_pos hz] at h
    simp [endsWithDot] at h
  · rename_i hz
    rw [if_neg hz] at h
    exact Clean_endsWithDot _ h

/-- The embedding of `Clean` and `Join` agrees with rows of the test table of Go package
`path` (`path_test.go`). -/
theorem Clean_test_table :
    Clean "" = "." ∧ Clean "abc" = "abc" ∧ Clean "/" = "/" ∧ Clean "abc/" = "abc" ∧
    Clean "abc//def//ghi" = "abc/def/ghi" ∧ Clean "//abc" = "/abc" ∧
    Clean "abc/./def" = "abc/def" ∧ Clean "/./abc/def" = "/abc/def" ∧
    Clean "abc/def/ghi/../jkl" = "abc/def/jkl" ∧ Clean "abc/def/../.." = "." ∧
    Clean "/abc/def/../../.." = "/" ∧ Clean "abc/def/../../../ghi/jkl/../../../mno" = "../../mno" ∧
    Clean "abc/./../def" = "def" ∧ Clean "abc/../../././../def" = "../../def" ∧
    Join ["a", "b"] = "a/b" ∧ Join ["a", ""] = "a" ∧ Join ["", "b"] = "b" ∧
    Join ["/", "a"] = "/a" ∧ Join ["a/", "b"] = "a/b" ∧ Join ["", ""] = "" := by
  decide

/-! ## Facts about the file system model -/

theorem walk_eq_foldl (fs : FS) (cs : List String) :
    ∀ (cur t : List String), walk fs cur cs = Except.ok t → t = cs.foldl stepNode cur := by
  induction cs with
  | nil =>
    intro cur t h
    simp [walk] at h
    simp [h]
  | cons c cs ih =>
    intro cur t h
    rw [walk] at h
    cases hk : kindOf fs cur with
    | none => simp [hk] at h
    | some k =>
      cases k with
      | regular => simp [hk] at h
      | directory =>
        simp only [hk] at h
        simpa using ih _ _ h

theorem walk_error_kind (fs : FS) (cs : List String) :
    ∀ (cur : List String) (e : Errno), walk fs cur cs = Except.error e →
      e = Errno.ENOENT ∨ e = Errno.ENOTDIR := by
  induction cs with
  | nil =>
    intro cur e h
    simp [walk] at h
  | cons c cs ih =>
    intro cur e h
    rw [walk] at h
    cases hk : kindOf fs cur with
    | none =>
      simp [hk] at h
      exact Or.inl h.symm
    | some k =>
      cases k with
      | regular =>
        simp [hk] at h
        exact Or.inr h.symm
      | directory =>
        simp only [hk] at h
        exact ih _ _ h

theorem sysLstat_error_kind (fs : FS) (path : String) (e : Errno)
    (h : sysLstat fs path = Except.error e) : e = Errno.ENOENT ∨ e = Errno.ENOTDIR := by
  unfold sysLstat at h
  cases hr : resolve fs path with
  | error e0 =>
    simp [hr] at h
    subst h
    unfold resolve at hr
    by_cases hp : path.data = []
    · simp [hp] at hr
      exact Or.inl hr.symm
    · simp only [hp, if_false] at hr
      exact walk_error_kind _ _ _ _ hr
  | ok node =>
    simp only [hr] at h
    cases hk : kindOf fs node with
    | none =>
      simp [hk] at h
      exact Or.inl h.symm
    | some k => simp [hk] at h

theorem kindOf_cons_directory (fs : FS) (node cur : List String)
    (h : kindOf fs cur = some FileKind.directory) :
    kindOf { fs with entries := (node, FileKind.directory) :: fs.entries } cur =
      some FileKind.directory := by
  unfold kindOf at h ⊢
  by_cases hc : cur = []
  · simp [hc]
  · simp only [hc, if_false] at h ⊢
    simp only [lookupEntry]
    by_cases hn : node = cur
    · simp [hn]
    · simp [hn, h]

theorem walk_cons_directory (fs : FS) (node : List String) (cs : List String) :
    ∀ (cur t : List String), walk fs cur cs = Except.ok t →
      walk { fs with entries := (node, FileKind.directory) :: fs.entries } cur cs =
        Except.ok t := by
  induction cs with
  | nil =>
    intro cur t h
    simpa [walk] using h
  | cons c cs ih =>
    intro cur t h
    rw [walk] at h ⊢
    cases hk : kindOf fs cur with
    | none => simp [hk] at h
    | some k =>
      cases k with
      | regular => simp [hk] at h
      | directory =>
        simp only [hk] at h
        rw [kindOf_cons_directory fs node cur hk]
        exact ih _ _ h

theorem sysMkdir_then_lstat (fs fs2 : FS) (path : String)
    (h : sysMkdir fs path = Except.ok fs2) :
    sysLstat fs2 path = Except.ok FileKind.directory := by
  unfold sysMkdir at h
  cases hr : resolve fs path with
  | error e => simp [hr] at h
  | ok node =>
    simp only [hr] at h
    by_cases hl : lastIsName path = false
    · simp [hl] at h
    · simp only [hl, if_false] at h
      cases hk : kindOf fs node with
      | some k => simp [hk] at h
      | none =>
        simp only [hk] at h
        injection h with h
        subst h
        have hr2 : resolve { fs with entries := (node, FileKind.directory) :: fs.entries } path =
            Except.ok node := by
          unfold resolve at hr ⊢
          by_cases hp : path.data = []
          · simp [hp] at hr
          · simp only [hp, if_false] at hr ⊢
            exact walk_cons_directory fs node _ _ _ hr
        unfold sysLstat
        simp only [hr2]
        have : kindOf { fs with entries := (node, FileKind.directory) :: fs.entries } node =
            some FileKind.directory := by
          unfold kindOf
          by_cases hn : node = []
          · simp [hn]
          · simp [hn, lookupEntry]
        simp [this]

theorem Stat_eq_ok_iff (fs : FS) (path : String) (k : FileKind) :
    Stat fs path = Except.ok k ↔ sysLstat fs path = Except.ok k := by
  unfold Stat
  cases sysLstat fs path <;> simp

theorem Lstat_eq_ok_iff (fs : FS) (path : String) (k : FileKind) :
    Lstat fs path = Except.ok k ↔ sysLstat fs path = Except.ok k := by
  unfold Lstat
  cases sysLstat fs path <;> simp

theorem mkdirAllAux_then_stat (fuel : Nat) (fs fs1 : FS) (path : String)
    (h : mkdirAllAux fuel fs path = (none, fs1)) :
    Stat fs1 path = Except.ok FileKind.directory := by
  cases fuel with
  | zero => simp [mkdirAllAux] at h
  | succ fuel =>
    rw [mkdirAllAux] at h
    cases hs : Stat fs path with
    | ok k =>
      cases k with
      | directory =>
        simp [hs] at h
        subst h
        exact hs
      | regular => simp [hs] at h
    | error e =>
      simp only [hs] at h
      generalize (if 1 < scanElement path.data (skipSeparators path.data path.data.length) then
          mkdirAllAux fuel fs ⟨path.data.take
            (scanElement path.data (skipSeparators path.data path.data.length) - 1)⟩
        else (none, fs)) = parent at h
      obtain ⟨perr, pfs⟩ := parent
      cases perr with
      | some err => simp at h
      | none =>
        simp only at h
        cases hm : sysMkdir pfs path with
        | ok fs2 =>
          simp [Mkdir, hm] at h
          subst h
          exact (Stat_eq_ok_iff _ _ _).2 (sysMkdir_then_lstat _ _ _ hm)
        | error e1 =>
          simp only [Mkdir, hm] at h
          cases hl : Lstat pfs path with
          | error e2 => simp [hl] at h
          | ok k =>
            cases k with
            | regular => simp [hl] at h
            | directory =>
              simp [hl] at h
              subst h
              exact (Stat_eq_ok_iff _ _ _).2 ((Lstat_eq_ok_iff _ _ _).1 hl)

theorem MkdirAll_then_stat (fs fs1 : FS) (path : String)
    (h : MkdirAll fs path = (none, fs1)) : Stat fs1 path = Except.ok FileKind.directory :=
  mkdirAllAux_then_stat _ _ _ _ h

theorem MkdirAll_of_directory (fs : FS) (path : String)
    (h : Stat fs path = Except.ok FileKind.directory) : MkdirAll fs path = (none, fs) := by
  unfold MkdirAll
  rw [mkdirAllAux]
  simp [h]

theorem skipSeparators_le (path : List Char) : ∀ i, skipSeparators path i ≤ i := by
  intro i
  induction i with
  | zero => simp [skipSeparators]
  | succ i ih =>
    rw [skipSeparators]
    split
    · exact Nat.le_succ_of_le ih
    · exact Nat.le_refl _

theorem scanElement_le (path : List Char) : ∀ j, scanElement path j ≤ j := by
  intro j
  induction j with
  | zero => simp [scanElement]
  | succ j ih =>
    rw [scanElement]
    split
    · exact Nat.le_succ_of_le ih
    · exact Nat.le_refl _

/-- Fuel beyond the length of the path is never used by `mkdirAllAux`: the out-of-fuel
branch is unreachable from `MkdirAll`. -/
theorem mkdirAllAux_fuel (n : Nat) :
    ∀ (m : Nat) (fs : FS) (path : String), path.data.length < n → path.data.length < m →
      mkdirAllAux n fs path = mkdirAllAux m fs path := by
  induction n with
  | zero => intro m fs path hn; omega
  | succ n ih =>
    intro m fs path hn hm
    cases m with
    | zero => omega
    | succ m =>
      rw [mkdirAllAux, mkdirAllAux]
      have hj : scanElement path.data (skipSeparators path.data path.data.length) ≤
          path.data.length :=
        Nat.le_trans (scanElement_le _ _) (skipSeparators_le _ _)
      by_cases h1 : 1 < scanElement path.data (skipSeparators path.data path.data.length)
      · have hlen : (path.data.take
            (scanElement path.data (skipSeparators path.data path.data.length) - 1)).length
              < path.data.length := by
          simp only [List.length_take]
          omega
        have e := ih m fs (String.mk (path.data.take
            (scanElement path.data (skipSeparators path.data path.data.length) - 1)))
          (Nat.lt_of_lt_of_le hlen (Nat.le_of_lt_succ hn))
          (Nat.lt_of_lt_of_le hlen (Nat.le_of_lt_succ hm))
        simp only [e]
      · simp only [h1, if_false]

theorem lookupEntry_filter_ne (node : List String) (entries : List (List String × FileKind)) :
    lookupEntry node (entries.filter (fun e => e.1 ≠ node)) = none := by
  induction entries with
  | nil => simp [lookupEntry]
  | cons e rest ih =>
    by_cases he : e.1 = node
    · simp_all [List.filter_cons]
    · simp_all [List.filter_cons, lookupEntry]

theorem resolve_eq_foldl (fs : FS) (path : String) (node : List String)
    (h : resolve fs path = Except.ok node) :
    node = (components path).foldl stepNode
      (if path.data.head? = some '/' then [] else fs.cwd) := by
  unfold resolve at h
  by_cases hp : path.data = []
  · simp [hp] at h
  · simp only [hp, if_false] at h
    exact walk_eq_foldl _ _ _ _ h

theorem lookupEntry_filter_path (r : List String → Bool) (cur : List String)
    (entries : List (List String × FileKind)) :
    lookupEntry cur (entries.filter (fun e => r e.1)) =
      if r cur = true then lookupEntry cur entries else none := by
  induction entries with
  | nil => simp [lookupEntry]
  | cons e rest ih =>
    by_cases hr : r e.1 = true
    · rw [List.filter_cons, if_pos hr]
      simp only [lookupEntry]
      by_cases he : e.1 = cur
      · rw [if_pos he, if_pos he]
        rw [he] at hr
        simp [hr]
      · rw [if_neg he, if_neg he]
        exact ih
    · rw [List.filter_cons, if_neg hr, ih]
      simp only [lookupEntry]
      by_cases he : e.1 = cur
      · rw [he] at hr
        simp [hr]
      · rw [if_neg he]

theorem kindOf_filter_path (fs : FS) (r : List String → Bool) (cur : List String) :
    kindOf { fs with entries := fs.entries.filter (fun e => r e.1) } cur = kindOf fs cur ∨
      kindOf { fs with entries := fs.entries.filter (fun e => r e.1) } cur = none := by
  unfold kindOf
  by_cases hc : cur = []
  · left
    simp [hc]
  · simp only [hc, if_false]
    rw [lookupEntry_filter_path]
    by_cases hr : r cur = true
    · left
      rw [if_pos hr]
    · right
      rw [if_neg hr]

theorem walk_filter_path (fs : FS) (r : List String → Bool) (cs : List String) :
    ∀ (cur t : List String), walk fs cur cs = Except.ok t →
      walk { fs with entries := fs.entries.filter (fun e => r e.1) } cur cs = Except.ok t ∨
        walk { fs with entries := fs.entries.filter (fun e => r e.1) } cur cs =
          Except.error Errno.ENOENT := by
  induction cs with
  | nil =>
    intro cur t h
    left
    simpa [walk] using h
  | cons c cs ih =>
    intro cur t h
    rw [walk] at h ⊢
    cases hk : kindOf fs cur with
    | none => simp [hk] at h
    | some k =>
      cases k with
      | regular => simp [hk] at h
      | directory =>
        simp only [hk] at h
        rcases kindOf_filter_path fs r cur with h1 | h1
        · rw [h1, hk]
          exact ih _ _ h
        · rw [h1]
          right
          rfl

/-- After the entry a path names has been filtered out of the tree, `lstat` on the path
reports that it does not exist. -/
theorem lstat_filter_path (fs : FS) (r : List String → Bool) (path : String)
    (node : List String) (hr : resolve fs path = Except.ok node) (hne : node ≠ [])
    (hnode : r node = false) :
    sysLstat { fs with entries := fs.entries.filter (fun e => r e.1) } path =
      Except.error Errno.ENOENT := by
  unfold resolve at hr
  by_cases hp : path.data = []
  · simp [hp] at hr
  · simp only [hp, if_false] at hr
    unfold sysLstat resolve
    simp only [hp, if_false]
    rcases walk_filter_path fs r _ _ _ hr with h1 | h1
    · rw [h1]
      have hk : kindOf { fs with entries := fs.entries.filter (fun e => r e.1) } node = none := by
        unfold kindOf
        simp only [hne, if_false]
        rw [lookupEntry_filter_path]
        simp [hnode]
      simp [hk]
    · rw [h1]

theorem eraseNode_then_lstat (fs : FS) (path : String) (node : List String)
    (hr : resolve fs path = Except.ok node) (hne : node ≠ []) :
    sysLstat (eraseNode fs node) path = Except.error Errno.ENOENT :=
  lstat_filter_path fs (fun n => decide (n ≠ node)) path node hr hne (by simp)

theorem sysUnlink_ok_then_lstat (fs fs1 : FS) (path : String)
    (hu : sysUnlink fs path = Except.ok fs1) :
    sysLstat fs1 path = Except.error Errno.ENOENT := by
  unfold sysUnlink at hu
  cases hr : resolve fs path with
  | error e => simp [hr] at hu
  | ok node =>
    simp only [hr] at hu
    by_cases hl : lastIsName path = false
    · simp [hl] at hu
    · simp only [hl, if_false] at hu
      cases hk : kindOf fs node with
      | none => simp [hk] at hu
      | some k =>
        cases k with
        | directory => simp [hk] at hu
        | regular =>
          simp [hk] at hu
          subst hu
          have hne : node ≠ [] := by
            intro h0
            subst h0
            simp [kindOf] at hk
          exact eraseNode_then_lstat fs path node hr hne

theorem sysRmdir_ok_then_lstat (fs fs1 : FS) (path : String)
    (hd : sysRmdir fs path = Except.ok fs1) :
    sysLstat fs1 path = Except.error Errno.ENOENT := by
  unfold sysRmdir at hd
  cases hr : resolve fs path with
  | error e => simp [hr] at hd
  | ok node =>
    simp only [hr] at hd
    split at hd
    · simp at hd
    · split at hd
      · simp at hd
      · split at hd
        · simp at hd
        · rename_i hne
          cases hk : kindOf fs node with
          | none => simp [hk] at hd
          | some k =>
            cases k with
            | regular => simp [hk] at hd
            | directory =>
              simp only [hk] at hd
              split at hd
              · simp at hd
              · injection hd with hd
                subst hd
                exact eraseNode_then_lstat fs path node hr hne

theorem sysUnlink_notExist_then_lstat (fs : FS) (path : String)
    (hu : sysUnlink fs path = Except.error Errno.ENOENT) :
    sysLstat fs path = Except.error Errno.ENOENT := by
  unfold sysUnlink at hu
  unfold sysLstat
  cases hr : resolve fs path with
  | error e =>
    simp only [hr] at hu
    injection hu with hu
    rw [hu]
  | ok node =>
    simp only [hr] at hu ⊢
    cases hk : kindOf fs node with
    | none => rfl
    | some k =>
      exfalso
      simp only [hk] at hu
      cases k <;> split_ifs at hu <;> simp at hu

theorem sysRmdir_notExist_then_lstat (fs : FS) (path : String)
    (hd : sysRmdir fs path = Except.error Errno.ENOENT) :
    sysLstat fs path = Except.error Errno.ENOENT := by
  unfold sysRmdir at hd
  unfold sysLstat
  cases hr : resolve fs path with
  | error e =>
    simp only [hr] at hd
    injection hd with hd
    rw [hd]
  | ok node =>
    simp only [hr] at hd ⊢
    cases hk : kindOf fs node with
    | none => rfl
    | some k =>
      exfalso
      simp only [hk] at hd
      cases k <;> split_ifs at hd <;> simp at hd

theorem Remove_ok_then_lstat (fs fs1 : FS) (path : String)
    (h : Remove fs path = (none, fs1)) : sysLstat fs1 path = Except.error Errno.ENOENT := by
  unfold Remove at h
  cases hu : sysUnlink fs path with
  | ok fsu =>
    simp [hu] at h
    subst h
    exact sysUnlink_ok_then_lstat _ _ _ hu
  | error e =>
    simp only [hu] at h
    cases hd : sysRmdir fs path with
    | error e1 => simp [hd] at h
    | ok fsd =>
      simp [hd] at h
      subst h
      exact sysRmdir_ok_then_lstat _ _ _ hd

theorem Remove_notExist_then_lstat (fs fs1 : FS) (path : String) (err : PathError)
    (h : Remove fs path = (some err, fs1)) (hno : err.Err = Errno.ENOENT) :
    sysLstat fs path = Except.error Errno.ENOENT := by
  unfold Remove at h
  cases hu : sysUnlink fs path with
  | ok fsu => simp [hu] at h
  | error e =>
    simp only [hu] at h
    cases hd : sysRmdir fs path with
    | ok fsd => simp [hd] at h
    | error e1 =>
      simp only [hd, Prod.mk.injEq, Option.some.injEq] at h
      obtain ⟨herr, _⟩ := h
      subst herr
      simp only at hno
      by_cases h1 : e1 = Errno.ENOTDIR
      · simp only [h1, ne_eq, not_true_eq_false, if_false] at hno
        rw [hno] at hu
        exact sysUnlink_notExist_then_lstat _ _ hu
      · simp only [ne_eq, h1, not_false_eq_true, if_true] at hno
        rw [hno] at hd
        exact sysRmdir_notExist_then_lstat _ _ hd

theorem Remove_of_lstat_error (fs : FS) (path : String) (e : Errno)
    (h : sysLstat fs path = Except.error e) : ∃ err, Remove fs path = (some err, fs) := by
  unfold sysLstat at h
  unfold Remove sysUnlink sysRmdir
  cases hr : resolve fs path with
  | error e0 => exact ⟨_, rfl⟩
  | ok node =>
    simp only [hr] at h ⊢
    cases hk : kindOf fs node with
    | some k => simp [hk] at h
    | none =>
      simp only [hk]
      split_ifs <;> exact ⟨_, rfl⟩

theorem walk_dropLast_error (fs : FS) (cs : List String) :
    ∀ (cur : List String) (e : Errno), walk fs cur cs.dropLast = Except.error e →
      walk fs cur cs = Except.error e := by
  induction cs with
  | nil => intro cur e h; simp [walk] at h
  | cons c cs ih =>
    intro cur e h
    cases cs with
    | nil => simp [walk] at h
    | cons d t =>
      rw [List.dropLast_cons₂, walk] at h
      rw [walk]
      cases hk : kindOf fs cur with
      | none => simpa [hk] using h
      | some k =>
        cases k with
        | regular => simpa [hk] using h
        | directory =>
          simp only [hk] at h ⊢
          exact ih _ _ h

theorem walk_dropLast_ok (fs : FS) (cs : List String) :
    ∀ (cur n : List String), cs ≠ [] → walk fs cur cs.dropLast = Except.ok n →
      walk fs cur cs =
        match kindOf fs n with
        | none => Except.error Errno.ENOENT
        | some FileKind.regular => Except.error Errno.ENOTDIR
        | some FileKind.directory => Except.ok (stepNode n (cs.getLast?.getD "")) := by
  induction cs with
  | nil => intro cur n h; exact absurd rfl h
  | cons c cs ih =>
    intro cur n _ h
    cases cs with
    | nil =>
      simp only [List.dropLast_single, walk, Except.ok.injEq] at h
      subst h
      simp only [walk, List.getLast?_singleton, Option.getD_some]
    | cons d t =>
      rw [List.dropLast_cons₂, walk] at h
      rw [walk]
      cases hk : kindOf fs cur with
      | none => simp [hk] at h
      | some k =>
        cases k with
        | regular => simp [hk] at h
        | directory =>
          simp only [hk] at h ⊢
          rw [ih _ _ (by simp) h]
          simp [List.getLast?_cons_cons]

theorem sysLstat_empty (fs : FS) : sysLstat fs "" = Except.error Errno.ENOENT := by
  simp [sysLstat, resolve]

theorem openParent_notExist_then_lstat (fs : FS) (path : String)
    (h : openParent fs path = Except.error Errno.ENOENT) :
    sysLstat fs path = Except.error Errno.ENOENT := by
  unfold openParent at h
  unfold sysLstat resolve
  by_cases hp : path.data = []
  · simp [hp]
  · simp only [hp, if_false] at h ⊢
    cases hw : walk fs (if path.data.head? = some '/' then [] else fs.cwd)
        (components path).dropLast with
    | error e =>
      simp only [hw] at h
      injection h with h
      subst h
      rw [walk_dropLast_error _ _ _ _ hw]
    | ok n =>
      simp only [hw] at h
      cases hk : kindOf fs n with
      | some k => simp [hk] at h
      | none =>
        by_cases hc : components path = []
        · rw [hc] at hw ⊢
          simp only [List.dropLast_nil, walk, Except.ok.injEq] at hw
          subst hw
          simp [walk, hk]
        · rw [walk_dropLast_ok _ _ _ _ hc hw, hk]

theorem openParent_of_notExist (fs : FS) (path : String)
    (h : sysLstat fs path = Except.error Errno.ENOENT) :
    (∃ n, openParent fs path = Except.ok n) ∨
      openParent fs path = Except.error Errno.ENOENT := by
  cases ho : openParent fs path with
  | ok n => exact Or.inl ⟨n, rfl⟩
  | error e =>
    right
    unfold openParent at ho
    unfold sysLstat resolve at h
    by_cases hp : path.data = []
    · simp only [hp, if_true] at ho
      exact ho.symm
    · simp only [hp, if_false] at h ho
      cases hw : walk fs (if path.data.head? = some '/' then [] else fs.cwd)
          (components path).dropLast with
      | error e1 =>
        simp only [hw] at ho
        rw [walk_dropLast_error _ _ _ _ hw] at h
        injection ho with ho
        injection h with h
        rw [← ho, h]
      | ok n =>
        simp only [hw] at ho
        cases hk : kindOf fs n with
        | some k => simp [hk] at ho
        | none =>
          simp only [hk] at ho
          exact ho.symm

theorem removeAllFrom_of_notExist (fs : FS) (path base : String)
    (h : sysLstat fs path = Except.error Errno.ENOENT) :
    removeAllFrom fs path base = (none, fs) := by
  unfold removeAllFrom
  cases hu : sysUnlink fs path with
  | ok fs1 =>
    have := sysUnlink_ok_then_lstat _ _ _ hu
    exfalso
    unfold sysUnlink at hu
    unfold sysLstat at h
    cases hr : resolve fs path with
    | error e => simp [hr] at hu
    | ok node =>
      simp only [hr] at hu h
      cases hk : kindOf fs node with
      | none =>
        simp only [hk] at hu
        split_ifs at hu
      | some k => simp [hk] at h
  | error e =>
    simp only
    by_cases h1 : e = Errno.ENOENT
    · rw [if_pos h1]
    · rw [if_neg h1]
      by_cases h2 : e ≠ Errno.EISDIR
      · exfalso
        unfold sysUnlink at hu
        unfold sysLstat at h
        cases hr : resolve fs path with
        | error e0 =>
          simp only [hr] at hu h
          injection hu with hu
          injection h with h
          exact h1 (hu ▸ h)
        | ok node =>
          simp only [hr] at hu h
          cases hk : kindOf fs node with
          | none =>
            simp only [hk] at hu
            split_ifs at hu
            · injection hu with hu
              exact h2 hu.symm
            · injection hu with hu
              exact h1 hu.symm
          | some k => simp [hk] at h
      · rw [if_neg h2, h]
        simp

theorem RemoveAll_of_notExist (fs : FS) (path : String)
    (hdot : path = "" ∨ endsWithDot path = false)
    (h : sysLstat fs path = Except.error Errno.ENOENT) :
    RemoveAll fs path = (none, fs) := by
  unfold RemoveAll
  by_cases hp : path = ""
  · rw [if_pos hp]
  · rw [if_neg hp]
    have hd : endsWithDot path = false := hdot.resolve_left hp
    rw [hd]
    simp only [Bool.false_eq_true, if_false]
    obtain ⟨err, herr⟩ := Remove_of_lstat_error fs path _ h
    simp only [herr]
    by_cases hno : err.Err = Errno.ENOENT
    · rw [if_pos hno]
    · rw [if_neg hno]
      rcases openParent_of_notExist fs path h with ⟨n, ho⟩ | ho
      · simp only [ho, removeAllFrom_of_notExist fs path _ h]
      · simp [ho]

theorem removeAllFrom_success (fs fs1 : FS) (path base : String)
    (h : removeAllFrom fs path base = (none, fs1)) :
    sysLstat fs1 path = Except.error Errno.ENOENT := by
  unfold removeAllFrom at h
  cases hu : sysUnlink fs path with
  | ok fsu =>
    simp [hu] at h
    subst h
    exact sysUnlink_ok_then_lstat _ _ _ hu
  | error e =>
    simp only [hu] at h
    by_cases h1 : e = Errno.ENOENT
    · rw [if_pos h1] at h
      simp at h
      subst h
      subst h1
      exact sysUnlink_notExist_then_lstat _ _ hu
    · rw [if_neg h1] at h
      by_cases h2 : e ≠ Errno.EISDIR
      · rw [if_pos h2] at h
        simp at h
      · rw [if_neg h2] at h
        cases hl : sysLstat fs path with
        | error se =>
          simp only [hl] at h
          by_cases h3 : se = Errno.ENOENT
          · rw [if_pos h3] at h
            simp at h
            subst h
            rw [hl, h3]
          · rw [if_neg h3] at h
            simp at h
        | ok k =>
          simp only [hl] at h
          cases k with
          | regular => simp at h
          | directory =>
            simp only at h
            cases hd : sysRmdir (removeContents fs path) path with
            | ok fs2 =>
              simp [hd] at h
              subst h
              exact sysRmdir_ok_then_lstat _ _ _ hd
            | error ue =>
              simp only [hd] at h
              by_cases h4 : ue = Errno.ENOENT
              · rw [if_pos h4] at h
                simp at h
                subst h
                subst h4
                exact sysRmdir_notExist_then_lstat _ _ hd
              · rw [if_neg h4] at h
                simp at h

/-- After a successful `RemoveAll` the path does not exist, and the path was one
`RemoveAll` accepts: empty or not ending in `.`. -/
theorem RemoveAll_success (fs fs1 : FS) (path : String)
    (h : RemoveAll fs path = (none, fs1)) :
    sysLstat fs1 path = Except.error Errno.ENOENT ∧ (path = "" ∨ endsWithDot path = false) := by
  unfold RemoveAll at h
  by_cases hp : path = ""
  · subst hp
    exact ⟨sysLstat_empty fs1, Or.inl rfl⟩
  · rw [if_neg hp] at h
    by_cases hd : endsWithDot path = true
    · rw [if_pos hd] at h
      simp at h
    · rw [if_neg hd] at h
      refine ⟨?_, Or.inr (by simpa using hd)⟩
      cases hrm : Remove fs path with
      | mk rerr rfs =>
        cases rerr with
        | none =>
          simp [hrm] at h
          subst h
          exact Remove_ok_then_lstat _ _ _ hrm
        | some err =>
          simp only [hrm] at h
          by_cases hno : err.Err = Errno.ENOENT
          · rw [if_pos hno] at h
            simp at h
            subst h
            exact Remove_notExist_then_lstat _ _ _ _ hrm hno
          · rw [if_neg hno] at h
            cases ho : openParent fs path with
            | error e =>
              simp only [ho] at h
              by_cases he : e = Errno.ENOENT
              · rw [if_pos he] at h
                simp at h
                subst h
                subst he
                exact openParent_notExist_then_lstat _ _ ho
              · rw [if_neg he] at h
                simp at h
            | ok n =>
              simp only [ho] at h
              cases hf : removeAllFrom fs path (splitPath path).2 with
              | mk ferr ffs =>
                cases ferr with
                | some perr => simp [hf] at h
                | none =>
                  simp [hf] at h
                  subst h
                  exact removeAllFrom_success _ _ _ _ hf

theorem pathExists_eq_false_iff (fs : FS) (path : String) :
    pathExists fs path = false ↔ ∃ e, sysLstat fs path = Except.error e := by
  unfold pathExists
  cases sysLstat fs path <;> simp

theorem RemoveAll_then_absent (fs fs1 : FS) (path : String)
    (h : RemoveAll fs path = (none, fs1)) : pathExists fs1 path = false :=
  (pathExists_eq_false_iff fs1 path).2 ⟨_, (RemoveAll_success fs fs1 path h).1⟩

/-! ## Ownership check of `Delete` -/

/-- C1: a volume whose ownership annotation is present and differs from the identity of
the provisioner makes `Delete` return the `IgnoredError`, and the file system is left as
it was. -/
theorem Delete_foreign_identity (p : hostPathProvisioner) (volume : PersistentVolume)
    (fs : FS) (ann : String)
    (hann : mapGet volume.ObjectMeta.Annotations provisionerIdentityAnnotation = some ann)
    (hne : ann ≠ p.Identity) :
    Delete p volume fs =
        (some (GoError.IgnoredError "identity annotation on PV does not match ours"), fs) ∧
      (∀ err, (Delete p volume fs).1 = some err → err.isIgnored = true) ∧
      (Delete p volume fs).2 = fs := by
  have h : Delete p volume fs =
      (some (GoError.IgnoredError "identity annotation on PV does not match ours"), fs) := by
    simp [Delete, hann, hne]
  refine ⟨h, ?_, ?_⟩
  · intro err herr
    rw [h] at herr
    cases herr
    rfl
  · rw [h]

theorem Delete_foreign_identity_witness :
    Delete exampleProvisioner
        (exampleVolume [( provisionerIdentityAnnotation, "node-2")])
        (MkdirAll exampleFS "/tmp/hostpath-provisioner/pvc-1").2 =
      (some (GoError.IgnoredError "identity annotation on PV does not match ours"),
        (MkdirAll exampleFS "/tmp/hostpath-provisioner/pvc-1").2) ∧
    (∀ err, (Delete exampleProvisioner
        (exampleVolume [( provisionerIdentityAnnotation, "node-2")])
        (MkdirAll exampleFS "/tmp/hostpath-provisioner/pvc-1").2).1 = some err →
      err.isIgnored = true) ∧
    (Delete exampleProvisioner
        (exampleVolume [( provisionerIdentityAnnotation, "node-2")])
        (MkdirAll exampleFS "/tmp/hostpath-provisioner/pvc-1").2).2 =
      (MkdirAll exampleFS "/tmp/hostpath-provisioner/pvc-1").2 :=
  Delete_foreign_identity exampleProvisioner
    (exampleVolume [( provisionerIdentityAnnotation, "node-2")])
    (MkdirAll exampleFS "/tmp/hostpath-provisioner/pvc-1").2 "node-2" (by decide) (by decide)

/-- C10: a volume without the ownership annotation makes `Delete` return the plain
`errors.New` error, which is not an `IgnoredError`, whatever the identity of the
provisioner, and the file system is left as it was. -/
theorem Delete_missing_annotation (p : hostPathProvisioner) (volume : PersistentVolume)
    (fs : FS)
    (hann : mapGet volume.ObjectMeta.Annotations provisionerIdentityAnnotation = none) :
    Delete p volume fs =
        (some (GoError.errorString "identity annotation not found on PV"), fs) ∧
      (∀ err, (Delete p volume fs).1 = some err → err.isIgnored = false) ∧
      (Delete p volume fs).2 = fs := by
  have h : Delete p volume fs =
      (some (GoError.errorString "identity annotation not found on PV"), fs) := by
    simp [Delete, hann]
  refine ⟨h, ?_, ?_⟩
  · intro err herr
    rw [h] at herr
    cases herr
    rfl
  · rw [h]

theorem Delete_missing_annotation_witness :
    Delete (NewHostPathProvisioner "" "/tmp/hostpath-provisioner") (exampleVolume [])
        (MkdirAll exampleFS "/tmp/hostpath-provisioner/pvc-1").2 =
      (some (GoError.errorString "identity annotation not found on PV"),
        (MkdirAll exampleFS "/tmp/hostpath-provisioner/pvc-1").2) ∧
    (∀ err, (Delete (NewHostPathProvisioner "" "/tmp/hostpath-provisioner") (exampleVolume [])
        (MkdirAll exampleFS "/tmp/hostpath-provisioner/pvc-1").2).1 = some err →
      err.isIgnored = false) ∧
    (Delete (NewHostPathProvisioner "" "/tmp/hostpath-provisioner") (exampleVolume [])
        (MkdirAll exampleFS "/tmp/hostpath-provisioner/pvc-1").2).2 =
      (MkdirAll exampleFS "/tmp/hostpath-provisioner/pvc-1").2 :=
  Delete_missing_annotation (NewHostPathProvisioner "" "/tmp/hostpath-provisioner")
    (exampleVolume []) (MkdirAll exampleFS "/tmp/hostpath-provisioner/pvc-1").2 (by decide)

/-! ## Results of `Provision` -/

/-- C2: when creating the directory succeeds, `Provision` (for options carrying the claim)
returns a volume named `options.PVName`, annotated with exactly the identity of the
provisioner, with the reclaim policy of the options, the access modes of the claim, a
capacity holding exactly the storage request of the claim, and the hostPath location
`Join(p.Root, options.PVName)`. -/
theorem Provision_volume_fields (p : hostPathProvisioner) (options : VolumeOptions) (fs : FS)
    (claim : PersistentVolumeClaim) (hpvc : options.PVC = some claim)
    (hmk : (MkdirAll fs (Join [p.Root, options.PVName])).1 = none) :
    ∃ v : PersistentVolume,
      (Provision p options fs).1 = Outcome.returned (some v, none) ∧
      v.ObjectMeta.Name = options.PVName ∧
      v.ObjectMeta.Annotations = [( provisionerIdentityAnnotation, p.Identity)] ∧
      v.Spec.PersistentVolumeReclaimPolicy = options.PersistentVolumeReclaimPolicy ∧
      v.Spec.AccessModes = claim.Spec.AccessModes ∧
      v.Spec.Capacity =
        [(ResourceStorage, claim.Spec.Resources.Requests.index ResourceStorage)] ∧
      v.Spec.PersistentVolumeSource.HostPath =
        some { Path := Join [p.Root, options.PVName] } := by
  cases hres : MkdirAll fs (Join [p.Root, options.PVName]) with
  | mk err fs1 =>
    rw [hres] at hmk
    simp only at hmk
    subst hmk
    simp only [Provision, hres, hpvc]
    exact ⟨_, rfl, rfl, rfl, rfl, rfl, rfl, rfl⟩

theorem Provision_volume_fields_witness :
    ∃ v : PersistentVolume,
      (Provision exampleProvisioner exampleOptions exampleFS).1 =
        Outcome.returned (some v, none) ∧
      v.ObjectMeta.Name = exampleOptions.PVName ∧
      v.ObjectMeta.Annotations = [( provisionerIdentityAnnotation, exampleProvisioner.Identity)] ∧
      v.Spec.PersistentVolumeReclaimPolicy = exampleOptions.PersistentVolumeReclaimPolicy ∧
      v.Spec.AccessModes = exampleClaim.Spec.AccessModes ∧
      v.Spec.Capacity =
        [(ResourceStorage, exampleClaim.Spec.Resources.Requests.index ResourceStorage)] ∧
      v.Spec.PersistentVolumeSource.HostPath =
        some { Path := Join [exampleProvisioner.Root, exampleOptions.PVName] } :=
  Provision_volume_fields exampleProvisioner exampleOptions exampleFS exampleClaim rfl
    (by decide)

/-- C8, as stated, fails: with options whose `PVC` is nil, `Provision` creates the
directory and then panics on reading `options.PVC.Spec`; it returns neither an error nor a
volume. -/
theorem Provision_nil_claim_panics :
    (MkdirAll exampleFS (Join [exampleProvisioner.Root, nilClaimOptions.PVName])).1 = none ∧
    Provision exampleProvisioner nilClaimOptions exampleFS =
      (Outcome.panicked nilDereference, provisionedFS) := by
  refine ⟨by decide, by decide⟩

/-- C8, amended: whenever creating the directory `Join(p.Root, options.PVName)` fails,
`Provision` returns the creation error together with no volume; when it succeeds and the
options carry a claim, `Provision` returns a volume together with no error. So for options
carrying a claim `Provision` does not panic, and it returns an error exactly when creating
the directory fails. -/
theorem Provision_error_or_volume (p : hostPathProvisioner) (options : VolumeOptions)
    (fs : FS) :
    (∀ err fs1, MkdirAll fs (Join [p.Root, options.PVName]) = (some err, fs1) →
      Provision p options fs =
        (Outcome.returned (none, some (GoError.pathError err)), fs1)) ∧
    (∀ claim fs1, options.PVC = some claim →
      MkdirAll fs (Join [p.Root, options.PVName]) = (none, fs1) →
      ∃ v, Provision p options fs = (Outcome.returned (some v, none), fs1)) ∧
    (∀ claim, options.PVC = some claim →
      ∃ res, (Provision p options fs).1 = Outcome.returned res ∧
        res.2 = asError (MkdirAll fs (Join [p.Root, options.PVName])).1 ∧
        (res.2.isSome = true ↔
          (MkdirAll fs (Join [p.Root, options.PVName])).1.isSome = true) ∧
        (res.1.isSome = true ↔ (MkdirAll fs (Join [p.Root, options.PVName])).1 = none)) := by
  refine ⟨?_, ?_, ?_⟩
  · intro err fs1 hres
    simp only [Provision, hres]
  · intro claim fs1 hpvc hres
    simp only [Provision, hres, hpvc]
    exact ⟨_, rfl⟩
  · intro claim hpvc
    cases hres : MkdirAll fs (Join [p.Root, options.PVName]) with
    | mk err fs1 =>
      cases err with
      | none =>
        simp only [Provision, hres, hpvc]
        exact ⟨_, rfl, rfl, by simp, by simp⟩
      | some e =>
        simp only [Provision, hres]
        exact ⟨_, rfl, rfl, by simp, by simp⟩

theorem Provision_error_or_volume_witness :
    Provision fileRootProvisioner nilClaimOptions exampleFS =
        (Outcome.returned
          (none, some (GoError.pathError ⟨"mkdir", "/etc", Errno.ENOTDIR⟩)), exampleFS) ∧
      (∃ v, Provision exampleProvisioner exampleOptions exampleFS =
        (Outcome.returned (some v, none), provisionedFS)) ∧
      (∃ res, (Provision fileRootProvisioner exampleOptions exampleFS).1 =
          Outcome.returned res ∧
        res.2 = asError (MkdirAll exampleFS
          (Join [fileRootProvisioner.Root, exampleOptions.PVName])).1 ∧
        (res.2.isSome = true ↔
          (MkdirAll exampleFS
            (Join [fileRootProvisioner.Root, exampleOptions.PVName])).1.isSome = true) ∧
        (res.1.isSome = true ↔
          (MkdirAll exampleFS
            (Join [fileRootProvisioner.Root, exampleOptions.PVName])).1 = none)) :=
  ⟨(Provision_error_or_volume fileRootProvisioner nilClaimOptions exampleFS).1
      ⟨"mkdir", "/etc", Errno.ENOTDIR⟩ exampleFS (by decide),
    (Provision_error_or_volume exampleProvisioner exampleOptions exampleFS).2.1
      exampleClaim provisionedFS rfl (by decide),
    (Provision_error_or_volume fileRootProvisioner exampleOptions exampleFS).2.2
      exampleClaim rfl⟩

/-! ## Configuration check of `Run` -/

/-- C5: with an empty node name or an empty root, `Run` returns an exit error with status 1
whose message is "node-name is mandatory" when the node name is empty and "root path is
mandatory" otherwise, and makes no call: the provisioner is not constructed and `Start` is
not called. -/
theorem Run_mandatory_flags (start : hostPathProvisioner → Option GoError) (c : Context)
    (h : c.String "node-name" = "" ∨ c.String "root" = "") :
    ∃ e : ExitError,
      Run start c = (some e, []) ∧ e.exitCode = 1 ∧ e.message ≠ "" ∧
      e.message =
        (if c.String "node-name" = "" then "node-name is mandatory"
         else "root path is mandatory") := by
  by_cases hn : c.String "node-name" = ""
  · refine ⟨NewExitError "node-name is mandatory" 1, ?_, rfl, by decide, ?_⟩
    · simp [Run, hn]
    · simp [hn, NewExitError]
  · have hr : c.String "root" = "" := h.resolve_left hn
    refine ⟨NewExitError "root path is mandatory" 1, ?_, rfl, by decide, ?_⟩
    · simp [Run, hn, hr]
    · simp [hn, NewExitError]

theorem Run_mandatory_flags_witness :
    ∃ e : ExitError,
      Run (fun _ => none) { flags := [("node-name", "node-1")] } = (some e, []) ∧
      e.exitCode = 1 ∧ e.message ≠ "" ∧
      e.message =
        (if Context.String { flags := [("node-name", "node-1")] } "node-name" = "" then
          "node-name is mandatory"
         else "root path is mandatory") :=
  Run_mandatory_flags (fun _ => none) { flags := [("node-name", "node-1")] }
    (Or.inr (by decide))

/-! ## Idempotence and round trip -/

theorem mapGet_singleton {β : Type} (k : String) (v : β) : mapGet [(k, v)] k = some v := by
  simp [mapGet]

theorem Delete_owned (p : hostPathProvisioner) (volume : PersistentVolume) (fs : FS)
    (hown : mapGet volume.ObjectMeta.Annotations provisionerIdentityAnnotation =
      some p.Identity) :
    Delete p volume fs =
      (asError (RemoveAll fs (Join [p.Root, volume.ObjectMeta.Name])).1,
        (RemoveAll fs (Join [p.Root, volume.ObjectMeta.Name])).2) := by
  unfold Delete
  simp only [hown, ne_eq, not_true_eq_false, if_false]
  cases hres : RemoveAll fs (Join [p.Root, volume.ObjectMeta.Name]) with
  | mk err fs1 => cases err <;> simp [asError]

theorem Delete_owned_success (p : hostPathProvisioner) (volume : PersistentVolume)
    (fs fs1 : FS)
    (hown : mapGet volume.ObjectMeta.Annotations provisionerIdentityAnnotation =
      some p.Identity) :
    Delete p volume fs = (none, fs1) ↔
      RemoveAll fs (Join [p.Root, volume.ObjectMeta.Name]) = (none, fs1) := by
  rw [Delete_owned p volume fs hown]
  cases hres : RemoveAll fs (Join [p.Root, volume.ObjectMeta.Name]) with
  | mk err fs2 => cases err <;> simp [asError]

theorem sysLstat_dot (fs : FS) (hcwd : kindOf fs fs.cwd = some FileKind.directory) :
    sysLstat fs "." = Except.ok FileKind.directory := by
  have hc : components "." = ["."] := by decide
  have hd : ("." : String).data = ['.'] := rfl
  unfold sysLstat resolve
  rw [hd, hc]
  simp [walk, stepNode, hcwd]

theorem notExist_iff (fs : FS) (path : String) :
    notExist fs path = true ↔ sysLstat fs path = Except.error Errno.ENOENT := by
  unfold notExist
  cases h : sysLstat fs path with
  | ok k => simp
  | error e => cases e <;> simp

/-- C3, as stated, fails: the root `/etc` is a regular file, so nothing exists at
`/etc/pvc-1`, and `Delete` of the owned volume `pvc-1` returns the error
`unlinkat /etc/pvc-1: not a directory`. -/
theorem Delete_below_file_fails :
    mapGet ownedVolume.ObjectMeta.Annotations provisionerIdentityAnnotation =
        some fileRootProvisioner.Identity ∧
    pathExists exampleFS (Join [fileRootProvisioner.Root, ownedVolume.ObjectMeta.Name]) = false ∧
    Delete fileRootProvisioner ownedVolume exampleFS =
      (some (GoError.pathError ⟨"unlinkat", "/etc/pvc-1", Errno.ENOTDIR⟩), exampleFS) := by
  refine ⟨by decide, by decide, by decide⟩

/-- C3, amended: for a volume owned by the provisioner, in a file system whose working
directory exists, `Delete` succeeds and leaves the file system unchanged when `lstat`
reports that `Join(p.Root, volume.Name)` does not exist (`ENOENT`); and after a successful
`Delete` a second `Delete` succeeds as well, changing nothing. -/
theorem Delete_notExist_succeeds (p : hostPathProvisioner) (volume : PersistentVolume)
    (fs : FS)
    (hown : mapGet volume.ObjectMeta.Annotations provisionerIdentityAnnotation =
      some p.Identity)
    (hcwd : kindOf fs fs.cwd = some FileKind.directory) :
    (notExist fs (Join [p.Root, volume.ObjectMeta.Name]) = true →
        Delete p volume fs = (none, fs)) ∧
      (∀ fs1, Delete p volume fs = (none, fs1) → Delete p volume fs1 = (none, fs1)) := by
  constructor
  · intro habs
    rw [notExist_iff] at habs
    rw [Delete_owned_success p volume fs fs hown]
    apply RemoveAll_of_notExist fs _ _ habs
    by_cases hd : endsWithDot (Join [p.Root, volume.ObjectMeta.Name]) = true
    · exfalso
      rw [Join_endsWithDot _ hd, sysLstat_dot fs hcwd] at habs
      cases habs
    · right
      simpa using hd
  · intro fs1 hdel
    rw [Delete_owned_success p volume fs fs1 hown] at hdel
    rw [Delete_owned_success p volume fs1 fs1 hown]
    obtain ⟨hl, hdot⟩ := RemoveAll_success fs fs1 _ hdel
    exact RemoveAll_of_notExist fs1 _ hdot hl

theorem Delete_notExist_succeeds_witness :
    (notExist exampleFS (Join [exampleProvisioner.Root, ownedVolume.ObjectMeta.Name]) = true ∧
      Delete exampleProvisioner ownedVolume exampleFS = (none, exampleFS)) ∧
    (Delete exampleProvisioner ownedVolume provisionedFS = (none, releasedFS) ∧
      Delete exampleProvisioner ownedVolume releasedFS = (none, releasedFS)) :=
  ⟨⟨by decide,
      (Delete_notExist_succeeds exampleProvisioner ownedVolume exampleFS (by decide)
        (by decide)).1 (by decide)⟩,
    ⟨by decide,
      (Delete_notExist_succeeds exampleProvisioner ownedVolume provisionedFS (by decide)
        (by decide)).2 releasedFS (by decide)⟩⟩

/-- C6: when `Provision` succeeds, calling it again with the same options on the resulting
file system succeeds, returns the same volume and leaves that file system as it is. -/
theorem Provision_idempotent (p : hostPathProvisioner) (options : VolumeOptions)
    (fs fs1 : FS) (v : PersistentVolume)
    (h : Provision p options fs = (Outcome.returned (some v, none), fs1)) :
    Provision p options fs1 = (Outcome.returned (some v, none), fs1) := by
  unfold Provision at h
  cases hres : MkdirAll fs (Join [p.Root, options.PVName]) with
  | mk err fs2 =>
    cases err with
    | some e => simp [hres] at h
    | none =>
      simp only [hres] at h
      cases hpvc : options.PVC with
      | none => simp [hpvc] at h
      | some claim =>
        simp only [hpvc, Prod.mk.injEq, Outcome.returned.injEq, Option.some.injEq,
          and_true] at h
        obtain ⟨hv, hfs⟩ := h
        subst hfs
        have h2 : MkdirAll fs2 (Join [p.Root, options.PVName]) = (none, fs2) :=
          MkdirAll_of_directory _ _ (MkdirAll_then_stat _ _ _ hres)
        unfold Provision
        simp only [h2, hpvc, hv]

theorem Provision_idempotent_witness :
    Provision exampleProvisioner exampleOptions exampleFS =
        (Outcome.returned
          (some (exampleVolume [( provisionerIdentityAnnotation, "node-1")]), none),
          provisionedFS) ∧
      Provision exampleProvisioner exampleOptions provisionedFS =
        (Outcome.returned
          (some (exampleVolume [( provisionerIdentityAnnotation, "node-1")]), none),
          provisionedFS) :=
  ⟨by decide,
    Provision_idempotent exampleProvisioner exampleOptions exampleFS provisionedFS
      (exampleVolume [( provisionerIdentityAnnotation, "node-1")]) (by decide)⟩

/-- C7: a volume returned by `Provision` passes the ownership check of `Delete` by the same
provisioner, which therefore runs `RemoveAll` on `Join(p.Root, v.Name)`; that path is the
hostPath location recorded in the volume; and when `Delete` succeeds nothing exists at
that path afterwards. -/
theorem Provision_Delete_roundtrip (p : hostPathProvisioner) (options : VolumeOptions)
    (fs fs1 : FS) (v : PersistentVolume)
    (h : Provision p options fs = (Outcome.returned (some v, none), fs1)) :
    mapGet v.ObjectMeta.Annotations provisionerIdentityAnnotation = some p.Identity ∧
      v.Spec.PersistentVolumeSource.HostPath =
        some { Path := Join [p.Root, v.ObjectMeta.Name] } ∧
      (∀ fs2, Delete p v fs2 =
        (asError (RemoveAll fs2 (Join [p.Root, v.ObjectMeta.Name])).1,
          (RemoveAll fs2 (Join [p.Root, v.ObjectMeta.Name])).2)) ∧
      (∀ fs2 fs3, Delete p v fs2 = (none, fs3) →
        pathExists fs3 (Join [p.Root, v.ObjectMeta.Name]) = false) := by
  have hv : mapGet v.ObjectMeta.Annotations provisionerIdentityAnnotation = some p.Identity ∧
      v.Spec.PersistentVolumeSource.HostPath =
        some { Path := Join [p.Root, v.ObjectMeta.Name] } := by
    unfold Provision at h
    cases hres : MkdirAll fs (Join [p.Root, options.PVName]) with
    | mk err fs2 =>
      cases err with
      | some e => simp [hres] at h
      | none =>
        simp only [hres] at h
        cases hpvc : options.PVC with
        | none => simp [hpvc] at h
        | some claim =>
          simp only [hpvc, Prod.mk.injEq, Outcome.returned.injEq, Option.some.injEq,
            and_true] at h
          obtain ⟨hv, _⟩ := h
          subst hv
          exact ⟨mapGet_singleton _ _, rfl⟩
  refine ⟨hv.1, hv.2, fun fs2 => Delete_owned p v fs2 hv.1, ?_⟩
  intro fs2 fs3 hdel
  rw [Delete_owned_success p v fs2 fs3 hv.1] at hdel
  exact RemoveAll_then_absent fs2 fs3 _ hdel

theorem Provision_Delete_roundtrip_witness :
    Provision exampleProvisioner exampleOptions exampleFS =
        (Outcome.returned (some ownedVolume, none), provisionedFS) ∧
      mapGet ownedVolume.ObjectMeta.Annotations provisionerIdentityAnnotation =
        some exampleProvisioner.Identity ∧
      ownedVolume.Spec.PersistentVolumeSource.HostPath =
        some { Path := Join [exampleProvisioner.Root, ownedVolume.ObjectMeta.Name] } ∧
      Delete exampleProvisioner ownedVolume provisionedFS = (none, releasedFS) ∧
      pathExists provisionedFS
        (Join [exampleProvisioner.Root, ownedVolume.ObjectMeta.Name]) = true ∧
      pathExists releasedFS
        (Join [exampleProvisioner.Root, ownedVolume.ObjectMeta.Name]) = false :=
  ⟨by decide,
    (Provision_Delete_roundtrip exampleProvisioner exampleOptions exampleFS provisionedFS
      ownedVolume (by decide)).1,
    (Provision_Delete_roundtrip exampleProvisioner exampleOptions exampleFS provisionedFS
      ownedVolume (by decide)).2.1,
    by decide, by decide,
    (Provision_Delete_roundtrip exampleProvisioner exampleOptions exampleFS provisionedFS
      ownedVolume (by decide)).2.2.2 provisionedFS releasedFS (by decide)⟩

/-! ## Where the backing directory lies -/

theorem childChars_ne_self (c s : List Char) (hs : isSegment s) : childChars c s ≠ c := by
  unfold childChars
  split
  · rename_i h
    rw [h]
    intro hcon
    simp only [List.cons.injEq, true_and] at hcon
    exact hs.1 hcon
  · split
    · rename_i h
      rw [h]
      exact hs.2.2.1
    · intro hcon
      have := List.append_right_eq_self.1 hcon
      simp at this

theorem isStrictDescendant_Join (root name : String) (hs : isSingleSegment name) :
    isStrictDescendant root (Join [root, name]) = true := by
  unfold isStrictDescendant
  rw [Join_eq_prefix_append root name hs, List.drop_left,
    splitSlash_of_not_mem _ hs.2.1]
  have hord : ordinaryName name.data = true := by
    unfold ordinaryName
    exact decide_eq_true ⟨hs.1, hs.2.2.1, hs.2.2.2⟩
  simp [hord]

/-- C4, as stated, fails: for the volume name `..` the path `Provision` creates and
returns is `/tmp`, the parent of the root `/tmp/hostpath-provisioner`, and `Delete` of such
a volume removes `/tmp` with everything in it; for the empty name `Join` gives the root
itself. -/
theorem Provision_outside_root :
    (Provision exampleProvisioner escapingOptions exampleFS).1 =
      Outcome.returned (some escapingVolume, none) ∧
    escapingVolume.Spec.PersistentVolumeSource.HostPath = some { Path := "/tmp" } ∧
    Join [exampleProvisioner.Root, ".."] = "/tmp" ∧
    isStrictDescendant exampleProvisioner.Root (Join [exampleProvisioner.Root, ".."]) = false ∧
    Delete exampleProvisioner escapingVolume provisionedFS =
      (none, { cwd := ["home"],
               entries := [(["home"], FileKind.directory), (["etc"], FileKind.regular)] }) ∧
    Join [exampleProvisioner.Root, ""] = exampleProvisioner.Root ∧
    isStrictDescendant exampleProvisioner.Root (Join [exampleProvisioner.Root, ""]) = false := by
  refine ⟨by decide, by decide, by decide, by decide, by decide, by decide, by decide⟩

/-- C4, amended: for a volume name that is a single path segment, `Join(Root, name)` is the
entry `name` directly inside the cleaned root, hence a strict descendant of the root and
never the root directory itself. -/
theorem Join_below_root (root name : String) (hs : isSingleSegment name) :
    Join [root, name] = childPath (Clean root) name ∧
      isStrictDescendant root (Join [root, name]) = true ∧
      Join [root, name] ≠ Clean root := by
  refine ⟨Join_single_segment root name hs, isStrictDescendant_Join root name hs, ?_⟩
  intro hcon
  have hd := congrArg String.data hcon
  rw [Join_data root name hs] at hd
  exact childChars_ne_self _ _ hs hd

theorem Join_below_root_witness :
    Join ["/tmp/hostpath-provisioner", "pvc-1"] =
        childPath (Clean "/tmp/hostpath-provisioner") "pvc-1" ∧
      isStrictDescendant "/tmp/hostpath-provisioner"
        (Join ["/tmp/hostpath-provisioner", "pvc-1"]) = true ∧
      Join ["/tmp/hostpath-provisioner", "pvc-1"] ≠ Clean "/tmp/hostpath-provisioner" :=
  Join_below_root "/tmp/hostpath-provisioner" "pvc-1" (by decide)

/-- C9: for two distinct volume names that are single path segments, the two backing
directories under the same root are distinct and neither lies below the other. -/
theorem Join_distinct_names (root n1 n2 : String) (h1 : isSingleSegment n1)
    (h2 : isSingleSegment n2) (hne : n1 ≠ n2) :
    Join [root, n1] ≠ Join [root, n2] ∧
      isPrefixDirectory (Join [root, n1]) (Join [root, n2]) = false ∧
      isPrefixDirectory (Join [root, n2]) (Join [root, n1]) = false := by
  refine ⟨?_, ?_, ?_⟩
  · intro hcon
    have hd := congrArg String.data hcon
    rw [Join_eq_prefix_append root n1 h1, Join_eq_prefix_append root n2 h2] at hd
    exact hne (String.ext (List.append_cancel_left hd))
  · unfold isPrefixDirectory
    rw [Join_eq_prefix_append root n1 h1, Join_eq_prefix_append root n2 h2]
    exact not_prefixDirectory_aux _ _ _ h1.2.1 h2.2.1 h1.1
  · unfold isPrefixDirectory
    rw [Join_eq_prefix_append root n1 h1, Join_eq_prefix_append root n2 h2]
    exact not_prefixDirectory_aux _ _ _ h2.2.1 h1.2.1 h2.1

theorem Join_distinct_names_witness :
    Join ["/tmp/hostpath-provisioner", "pvc-1"] ≠ Join ["/tmp/hostpath-provisioner", "pvc-12"] ∧
      isPrefixDirectory (Join ["/tmp/hostpath-provisioner", "pvc-1"])
        (Join ["/tmp/hostpath-provisioner", "pvc-12"]) = false ∧
      isPrefixDirectory (Join ["/tmp/hostpath-provisioner", "pvc-12"])
        (Join ["/tmp/hostpath-provisioner", "pvc-1"]) = false :=
  Join_distinct_names "/tmp/hostpath-provisioner" "pvc-1" "pvc-12" (by decide) (by decide)
    (by decide)

end HostPath
